import Mathlib

/-!
# PQ-Aggregate: verification of the aggregation-and-verification pipeline

A shallow embedding of the core of the `pq-aggregate` repository
(`src/utils.rs`, `src/types.rs`, `src/core/keygen.rs`, `src/core/signing.rs`,
`src/core/aggregation.rs`, `src/verifier.rs`), together with theorems settling
the spec claims about it.

Modelling conventions:
* Bytes are natural numbers (`u8` values are `< 256` where it matters); byte
  buffers (`Vec<u8>`, `[u8; 32]`) are `List Nat`.
* The external SHA3-256 primitive (the `sha3` crate) is an opaque collaborator:
  every function that hashes takes a `hash : List Nat → List Nat` parameter.
  Claims that need the digest width carry the collaborator contract
  `∀ d, (hash d).length = 32` as a hypothesis.
* The external ML-DSA-65 primitive (the `pqc_dilithium` crate) is likewise a
  pair of opaque parameters `mlDsaSign` / `mlDsaVerify`; randomness (keypair
  generation, nonce draws) is threaded in as generator functions.
* `usize` arithmetic is `Nat` arithmetic with explicit `% 2^w` at the points
  the Rust code casts (`as u16`, `as u32`); the target is 64-bit, so
  `usize::to_le_bytes` is 8 bytes.
* The single `f64` computation of the repository
  (`calculate_adaptive_threshold`) is embedded exactly as IEEE-754 binary64
  arithmetic over dyadic rationals, see `F64` below.
-/

namespace PQAggregate

/-! ## Little-endian byte encodings

`k`-byte little-endian encoding of `n` (byte `i` is `n / 256^i % 256`); this is
what Rust's `to_le_bytes` produces after the `as uN` truncating cast, because
the bytes beyond position `k` are simply dropped. -/

def leBytes (k n : Nat) : List Nat :=
  (List.range k).map (fun i => n / 256 ^ i % 256)

/-- The all-zero 32-byte array `[0u8; 32]`. -/
def zero32 : List Nat := List.replicate 32 0

/-! ## IEEE-754 binary64 model for `calculate_adaptive_threshold`

`src/utils.rs` computes `(n as f64 * ratio).ceil() as usize`. All values that
arise are nonnegative dyadic rationals far from overflow/subnormal range, so we
model an `f64` as an exact value `m * 2^e` (significand `m : Nat`, unbiased
exponent `e : Int`) and implement round-to-nearest-even at 53 significant bits.
-/

/-- Floor of the base-2 logarithm, by structural recursion on a fuel argument
(128 bits of fuel: exact for every `n < 2^128`, which covers every number the
64-bit pipeline can produce). -/
def ilog2Fuel : Nat → Nat → Nat
  | 0, _ => 0
  | fuel + 1, n => if n < 2 then 0 else ilog2Fuel fuel (n / 2) + 1

/-- Floor of the base-2 logarithm (exact on `n < 2^128`). -/
def ilog2 (n : Nat) : Nat := ilog2Fuel 128 n

/-- Round-to-nearest-even of the rational `a / d` to an integer (`d > 0`). -/
def rne (a d : Nat) : Nat :=
  let q := a / d
  let r := a % d
  if 2 * r < d then q
  else if d < 2 * r then q + 1
  else if q % 2 = 0 then q else q + 1

/-- A nonnegative binary64 value, represented exactly as `m * 2^e`. -/
structure F64 where
  m : Nat
  e : Int
  deriving Repr, DecidableEq

/-- Round `m * 2^e` to 53 significant bits (round-to-nearest-even). -/
def round53 (m : Nat) (e : Int) : F64 :=
  if m = 0 then ⟨0, 0⟩
  else
    let b := ilog2 m
    if b < 53 then ⟨m, e⟩
    else
      let k := b - 52
      ⟨rne m (2 ^ k), e + k⟩

/-- `n as f64` (round-to-nearest-even, as IEEE `u64 → f64` conversion does). -/
def natToF64 (n : Nat) : F64 := round53 n 0

/-- IEEE binary64 multiplication: exact product, then one rounding. -/
def mulF64 (x y : F64) : F64 := round53 (x.m * y.m) (x.e + y.e)

/-- The binary64 value of the decimal literal `a / b` (used for `0.51`,
`0.67`, `0.75`): round-to-nearest-even of the exact rational. -/
def ratToF64 (a b : Nat) : F64 :=
  if a = 0 then ⟨0, 0⟩
  else
    let la := ilog2 a
    let lb := ilog2 b
    let e0 : Int := (la : Int) - lb - 53
    let scaled : Nat := if 0 ≤ e0 then a / (b * 2 ^ e0.toNat) else a * 2 ^ (-e0).toNat / b
    let e1 : Int := if 2 ^ 53 ≤ scaled then e0 + 1 else e0
    if 0 ≤ e1 then ⟨rne a (b * 2 ^ e1.toNat), e1⟩
    else ⟨rne (a * 2 ^ (-e1).toNat) b, e1⟩

/-- `(x.ceil() as usize)` for a nonnegative `F64` (the cast is exact here: the
values reached by `calculate_adaptive_threshold` always fit in `usize`). -/
def f64CeilToNat (x : F64) : Nat :=
  match x.e with
  | Int.ofNat k => x.m * 2 ^ k
  | Int.negSucc k => (x.m + 2 ^ (k + 1) - 1) / 2 ^ (k + 1)

/-- `calculate_adaptive_threshold` from `src/utils.rs`:
ratio table per security level, `(n as f64 * ratio).ceil() as usize`,
clamped by `.max(1).min(n)`. Returns `0` for `n = 0`. -/
def calculate_adaptive_threshold (n : Nat) (security_level : Nat) : Nat :=
  if n = 0 then 0
  else
    let ratio : F64 :=
      match security_level with
      | 1 => ratToF64 51 100
      | 2 => ratToF64 67 100
      | 3 => ratToF64 75 100
      | _ => ratToF64 67 100
    let threshold := f64CeilToNat (mulF64 (natToF64 n) ratio)
    min (max threshold 1) n

/-- The spec's reading of the same function, in exact (real/rational)
arithmetic: `ceil(n * ratio)` clamped to `[1, n]`, with
`ceil(n * a/100) = (n * a + 99) / 100` over `Nat`. -/
def adaptiveThresholdExact (n : Nat) (security_level : Nat) : Nat :=
  if n = 0 then 0
  else
    let numer : Nat :=
      match security_level with
      | 1 => 51
      | 2 => 67
      | 3 => 75
      | _ => 67
    min (max ((n * numer + 99) / 100) 1) n

/-! ## Core data types (src/types.rs) -/

/-- `SecretKey`: raw secret-key bytes plus participant index. -/
structure SecretKey where
  bytes : List Nat
  index : Nat
  deriving Repr, DecidableEq

/-- `PublicKey`: raw public-key bytes plus participant index. -/
structure PublicKey where
  bytes : List Nat
  index : Nat
  deriving Repr, DecidableEq

/-- `Signature`: raw signature bytes, signer index, and 32-byte nonce. -/
structure Signature where
  bytes : List Nat
  signer_index : Nat
  nonce : List Nat
  deriving Repr, DecidableEq

/-- `MerkleProof`: sibling hashes (root-ward), leaf index, leaf hash. -/
structure MerkleProof where
  siblings : List (List Nat)
  leaf_index : Nat
  leaf_hash : List Nat
  deriving Repr, DecidableEq

/-- `ZKSNARKProof`: proof body bytes, aggregated-signature count, and the
32-byte commitment to the public inputs. -/
structure ZKSNARKProof where
  proof_bytes : List Nat
  num_signatures : Nat
  public_inputs_hash : List Nat
  deriving Repr, DecidableEq

/-- `ZKSNARKProof::size`: length of the proof body. -/
def ZKSNARKProof.size (p : ZKSNARKProof) : Nat := p.proof_bytes.length

/-! ## Merkle tree (src/utils.rs)

All hashing goes through the opaque SHA3-256 collaborator `hash`. -/

/-- `hash_pair`: hash of the concatenation of two nodes. -/
def hash_pair (hash : List Nat → List Nat) (left right : List Nat) : List Nat :=
  hash (left ++ right)

/-- `usize::next_power_of_two` returns the smallest power of two `≥ n`
(and `1` for `n = 0`). We produce the exponent first, via
`np2 n = 2 * np2 (ceil (n / 2))` for `n ≥ 2`. -/
def nextPowerOfTwoExp : Nat → Nat
  | 0 => 0
  | 1 => 0
  | n + 2 => nextPowerOfTwoExp ((n + 2 + 1) / 2) + 1
  decreasing_by omega

/-- Smallest power of two `≥ n` (`1` for `n = 0`), as `usize::next_power_of_two`. -/
def nextPowerOfTwo (n : Nat) : Nat := 2 ^ nextPowerOfTwoExp n

/-- `MerkleTree`: all nodes in the array-backed tree (root at index 0,
leaves at the end) plus the number of real leaves. -/
structure MerkleTree where
  nodes : List (List Nat)
  num_leaves : Nat
  deriving Repr, DecidableEq

/-- One iteration of the bottom-up build loop:
`nodes[i] = hash_pair(nodes[2i+1], nodes[2i+2])`. -/
def fillStep (hash : List Nat → List Nat) (nodes : List (List Nat)) (i : Nat) :
    List (List Nat) :=
  nodes.set i (hash_pair hash (nodes.getD (2 * i + 1) zero32) (nodes.getD (2 * i + 2) zero32))

/-- The build loop `for i in (0..leaf_start).rev()`: `fillInternal hash nodes k`
runs `fillStep` at `k-1, k-2, …, 0` in that order. -/
def fillInternal (hash : List Nat → List Nat) (nodes : List (List Nat)) :
    Nat → List (List Nat)
  | 0 => nodes
  | i + 1 => fillInternal hash (fillStep hash nodes i) i

/-- `MerkleTree::from_leaves`: zero leaves give the degenerate
single-zero-node tree; otherwise pad to the next power of two with zero
leaves, lay the padded leaves out after `padded_size - 1` zero-initialised
internal slots (total `2 * padded_size - 1` nodes), and fill the internal
nodes bottom-up. -/
def MerkleTree.from_leaves (hash : List Nat → List Nat) (leaves : List (List Nat)) :
    MerkleTree :=
  if leaves.length = 0 then ⟨[zero32], 0⟩
  else
    let padded_size := nextPowerOfTwo leaves.length
    let padded_leaves := leaves ++ List.replicate (padded_size - leaves.length) zero32
    let nodes := List.replicate (padded_size - 1) zero32 ++ padded_leaves
    ⟨fillInternal hash nodes (padded_size - 1), leaves.length⟩

/-- `MerkleTree::from_public_keys`: leaves are the hashes of the raw key bytes. -/
def MerkleTree.from_public_keys (hash : List Nat → List Nat)
    (public_keys : List PublicKey) : MerkleTree :=
  MerkleTree.from_leaves hash (public_keys.map fun pk => hash pk.bytes)

/-- `MerkleTree::root`: first node, or the zero hash for an empty node list. -/
def MerkleTree.root (t : MerkleTree) : List Nat := t.nodes.headD zero32

/-- The `while node_index > 0` sibling-collection loop of `MerkleTree::prove`:
push the sibling (when it is in range) and step to the parent `(v - 1) / 2`. -/
def collectSiblings (nodes : List (List Nat)) (node_index : Nat) :
    List (List Nat) :=
  if node_index = 0 then []
  else
    let sibling_index := if node_index % 2 = 1 then node_index + 1 else node_index - 1
    (if sibling_index < nodes.length then [nodes.getD sibling_index zero32] else []) ++
      collectSiblings nodes ((node_index - 1) / 2)
  termination_by node_index
  decreasing_by omega

/-- `MerkleTree::prove`: `None` for out-of-range indices, otherwise the sibling
path from padded leaf position `leaf_start + leaf_index`. -/
def MerkleTree.prove (t : MerkleTree) (leaf_index : Nat) : Option MerkleProof :=
  if t.num_leaves ≤ leaf_index then none
  else
    let padded_size := nextPowerOfTwo t.num_leaves
    let leaf_start := padded_size - 1
    let node_index := leaf_start + leaf_index
    let leaf_hash := t.nodes.getD node_index zero32
    some ⟨collectSiblings t.nodes node_index, leaf_index, leaf_hash⟩

/-- The replay loop of `MerkleTree::verify_proof`: combine with each sibling
according to the parity of the running index, halving the index each level. -/
def replayProof (hash : List Nat → List Nat) :
    List (List Nat) → Nat → List Nat → List Nat
  | [], _, current => current
  | sibling :: rest, index, current =>
      replayProof hash rest (index / 2)
        (if index % 2 = 0 then hash_pair hash current sibling
         else hash_pair hash sibling current)

/-- `MerkleTree::verify_proof`: replay the sibling chain from the leaf hash and
compare with the root. -/
def MerkleTree.verify_proof (hash : List Nat → List Nat) (root : List Nat)
    (proof : MerkleProof) : Bool :=
  decide (replayProof hash proof.siblings proof.leaf_index proof.leaf_hash = root)

/-! ## Merkle tree lemmas -/

theorem nextPowerOfTwo_pos (n : Nat) : 0 < nextPowerOfTwo n :=
  Nat.pos_pow_of_pos _ (by norm_num)

theorem le_nextPowerOfTwo : ∀ n : Nat, n ≤ nextPowerOfTwo n := by
  intro n
  induction n using Nat.strong_induction_on with
  | _ n ih =>
    match n with
    | 0 => simp [nextPowerOfTwo, nextPowerOfTwoExp]
    | 1 => simp [nextPowerOfTwo, nextPowerOfTwoExp]
    | n + 2 =>
      have h := ih ((n + 2 + 1) / 2) (by omega)
      have : nextPowerOfTwo (n + 2) = 2 * nextPowerOfTwo ((n + 2 + 1) / 2) := by
        simp [nextPowerOfTwo, nextPowerOfTwoExp, Nat.pow_succ]
        ring
      omega

theorem fillInternal_length (hash : List Nat → List Nat) :
    ∀ (k : Nat) (nodes : List (List Nat)),
      (fillInternal hash nodes k).length = nodes.length := by
  intro k
  induction k with
  | zero => intro nodes; rfl
  | succ k ih => intro nodes; rw [fillInternal, ih]; simp [fillStep]

/-- Positions `≥ k` are untouched by the build loop run down from `k`. -/
theorem fillInternal_getD_high (hash : List Nat → List Nat) :
    ∀ (k : Nat) (nodes : List (List Nat)) (j : Nat), k ≤ j →
      (fillInternal hash nodes k).getD j zero32 = nodes.getD j zero32 := by
  intro k
  induction k with
  | zero => intro nodes j _; rfl
  | succ k ih =>
    intro nodes j hj
    rw [fillInternal, ih _ _ (by omega)]
    simp only [fillStep, List.getD_eq_getD_get?]
    rw [List.get?_set_ne _ _ (by omega)]

/-- After the build loop, every internal node below `k` is the hash of its two
children. -/
theorem fillInternal_parent (hash : List Nat → List Nat) :
    ∀ (k : Nat) (nodes : List (List Nat)), 2 * k < nodes.length →
      ∀ i < k,
        (fillInternal hash nodes k).getD i zero32 =
          hash_pair hash ((fillInternal hash nodes k).getD (2 * i + 1) zero32)
            ((fillInternal hash nodes k).getD (2 * i + 2) zero32) := by
  intro k
  induction k with
  | zero => intro nodes _ i hi; omega
  | succ k ih =>
    intro nodes hlen i hi
    rw [fillInternal]
    rcases Nat.lt_or_ge i k with hik | hik
    · exact ih (fillStep hash nodes k) (by simp [fillStep]; omega) i hik
    · have hieq : i = k := by omega
      subst hieq
      rw [fillInternal_getD_high hash i _ i (le_refl i),
        fillInternal_getD_high hash i _ (2 * i + 1) (by omega),
        fillInternal_getD_high hash i _ (2 * i + 2) (by omega)]
      simp only [fillStep, List.getD_eq_getD_get?]
      rw [List.get?_set_ne _ _ (show i ≠ 2 * i + 1 by omega),
        List.get?_set_ne _ _ (show i ≠ 2 * i + 2 by omega),
        List.get?_set_eq_of_lt _ (show i < nodes.length by omega)]
      rfl

/-- Replaying the collected sibling path from any node at depth `k`
(node array position `2^k - 1 + j`) reaches the root node, provided every
internal node is the hash of its children. -/
theorem replay_collectSiblings (hash : List Nat → List Nat)
    (N : List (List Nat)) (p : Nat) (hlen : N.length = 2 * p - 1)
    (hpar : ∀ i, i < p - 1 →
      N.getD i zero32 =
        hash_pair hash (N.getD (2 * i + 1) zero32) (N.getD (2 * i + 2) zero32)) :
    ∀ (k j : Nat), j < 2 ^ k → 2 ^ k ≤ p →
      replayProof hash (collectSiblings N (2 ^ k - 1 + j)) j
        (N.getD (2 ^ k - 1 + j) zero32) = N.getD 0 zero32 := by
  intro k
  induction k with
  | zero =>
    intro j hj _
    interval_cases j
    rw [collectSiblings]
    simp [replayProof]
  | succ k ih =>
    intro j hj hp
    have hp2 : (2:Nat) ^ (k + 1) = 2 * 2 ^ k := by ring
    have hpk : (2:Nat) ^ k ≤ p := by omega
    have hppos : 1 ≤ 2 ^ k := Nat.one_le_two_pow
    set v := 2 ^ (k + 1) - 1 + j with hv
    have hvpos : v ≠ 0 := by omega
    have hu : (v - 1) / 2 = 2 ^ k - 1 + j / 2 := by omega
    have hj2 : j / 2 < 2 ^ k := by omega
    have hupar : 2 ^ k - 1 + j / 2 < p - 1 := by omega
    have hparent := hpar _ hupar
    rw [collectSiblings]
    simp only [if_neg hvpos, hu]
    rcases Nat.even_or_odd j with hje | hjo
    · -- j even, node position v odd: sibling is v + 1, the right child
      have hje' : j % 2 = 0 := Nat.even_iff.mp hje
      have hvodd : v % 2 = 1 := by omega
      have hsib : (if v % 2 = 1 then v + 1 else v - 1) = v + 1 := by
        rw [if_pos hvodd]
      have hrange : v + 1 < N.length := by omega
      rw [hsib, if_pos hrange]
      have hchildl : 2 * (2 ^ k - 1 + j / 2) + 1 = v := by omega
      have hchildr : 2 * (2 ^ k - 1 + j / 2) + 2 = v + 1 := by omega
      rw [hchildl, hchildr] at hparent
      simp only [List.singleton_append, replayProof, if_pos hje', ← hparent]
      exact ih (j / 2) hj2 hpk
    · -- j odd, node position v even: sibling is v - 1, the left child
      have hjo' : j % 2 = 1 := Nat.odd_iff.mp hjo
      have hveven : ¬ v % 2 = 1 := by omega
      have hsib : (if v % 2 = 1 then v + 1 else v - 1) = v - 1 := by
        rw [if_neg hveven]
      have hrange : v - 1 < N.length := by omega
      rw [hsib, if_pos hrange]
      have hchildl : 2 * (2 ^ k - 1 + j / 2) + 1 = v - 1 := by omega
      have hchildr : 2 * (2 ^ k - 1 + j / 2) + 2 = v := by omega
      rw [hchildl, hchildr] at hparent
      have hjne : ¬ j % 2 = 0 := by omega
      simp only [List.singleton_append, replayProof, if_neg hjne, ← hparent]
      exact ih (j / 2) hj2 hpk

theorem headD_eq_getD_zero (l : List (List Nat)) : l.headD zero32 = l.getD 0 zero32 := by
  cases l <;> rfl

/-- Merkle round-trip: for every leaf list and in-range index, `prove` returns
a proof that `verify_proof` accepts against the tree's own root. -/
theorem merkle_prove_verifies (hash : List Nat → List Nat) (L : List (List Nat))
    (i : Nat) (hi : i < L.length) :
    ∃ pf, (MerkleTree.from_leaves hash L).prove i = some pf ∧
      MerkleTree.verify_proof hash (MerkleTree.from_leaves hash L).root pf = true := by
  have hn : ¬ L.length = 0 := by omega
  have hp2 : nextPowerOfTwo L.length = 2 ^ nextPowerOfTwoExp L.length := rfl
  set K := nextPowerOfTwoExp L.length with hK
  set p := nextPowerOfTwo L.length with hp
  have hnp : L.length ≤ p := le_nextPowerOfTwo L.length
  have hppos : 0 < p := nextPowerOfTwo_pos L.length
  set nodes0 := List.replicate (p - 1) zero32 ++
    (L ++ List.replicate (p - L.length) zero32) with hnodes0
  have hlen0 : nodes0.length = 2 * p - 1 := by
    simp [hnodes0]
    omega
  set N := fillInternal hash nodes0 (p - 1) with hN
  have htree : MerkleTree.from_leaves hash L = ⟨N, L.length⟩ := by
    simp only [MerkleTree.from_leaves, hN, hnodes0, hp]
    rw [if_neg hn]
  have hlenN : N.length = 2 * p - 1 := by
    rw [hN, fillInternal_length]
    exact hlen0
  have hpar := fillInternal_parent hash (p - 1) nodes0 (by omega)
  rw [← hN] at hpar
  have hmain := replay_collectSiblings hash N p hlenN hpar K i (by omega) (by omega)
  refine ⟨⟨collectSiblings N (p - 1 + i), i, N.getD (p - 1 + i) zero32⟩, ?_, ?_⟩
  · rw [htree]
    simp only [MerkleTree.prove]
    rw [if_neg (by simpa using hi)]
  · rw [htree]
    simp only [MerkleTree.verify_proof, MerkleTree.root]
    apply decide_eq_true
    rw [headD_eq_getD_zero, show p - 1 + i = 2 ^ K - 1 + i from by omega]
    exact hmain

/-- C2: Merkle round-trip — for every non-empty list `L` of leaves and every
index `i < L.length`, `MerkleTree::from_leaves(L).prove(i)` returns `Some`
proof, and `MerkleTree::verify_proof(tree.root(), proof)` returns `true` for
that same tree. -/
theorem C2_merkle_roundtrip (hash : List Nat → List Nat) (L : List (List Nat))
    (hne : L ≠ []) (i : Nat) (hi : i < L.length) :
    ∃ pf, (MerkleTree.from_leaves hash L).prove i = some pf ∧
      MerkleTree.verify_proof hash (MerkleTree.from_leaves hash L).root pf = true :=
  merkle_prove_verifies hash L i hi

/-- Witness for C2, at three concrete leaves and index 1. -/
theorem C2_merkle_roundtrip_witness :
    ([[1], [2], [3]] : List (List Nat)) ≠ [] ∧
    1 < ([[1], [2], [3]] : List (List Nat)).length ∧
    ∃ pf,
      (MerkleTree.from_leaves (fun d => List.replicate 32 (d.sum % 256))
        [[1], [2], [3]]).prove 1 = some pf ∧
      MerkleTree.verify_proof (fun d => List.replicate 32 (d.sum % 256))
        (MerkleTree.from_leaves (fun d => List.replicate 32 (d.sum % 256))
          [[1], [2], [3]]).root pf = true :=
  ⟨by decide, by decide,
    C2_merkle_roundtrip (fun d => List.replicate 32 (d.sum % 256))
      [[1], [2], [3]] (by decide) 1 (by decide)⟩

/-- C10: Merkle degenerate cases — `from_leaves` on an empty leaf list has the
all-zero 32-byte root, and on exactly one leaf the root is that leaf verbatim,
with no hash applied (the statement holds for every hash function). -/
theorem C10_merkle_degenerate :
    (∀ hash : List Nat → List Nat, (MerkleTree.from_leaves hash []).root = zero32) ∧
    (∀ (hash : List Nat → List Nat) (leaf : List Nat),
      (MerkleTree.from_leaves hash [leaf]).root = leaf) := by
  constructor
  · intro hash
    rfl
  · intro hash leaf
    have h1 : nextPowerOfTwo 1 = 1 := by simp [nextPowerOfTwo, nextPowerOfTwoExp]
    simp [MerkleTree.from_leaves, h1, fillInternal, MerkleTree.root]

/-- C6 counterexample: the claim says the result is the exact
`ceil(n * ratio)` clamped to `[1, n]`, but at `n = 1500`, level 2 the code's
binary64 product `1500 * 0.67_f64` rounds to just above `1005`, so the code
returns `1006` while the exact formula gives `ceil(1005) = 1005`. -/
theorem C6_adaptive_threshold_counterexample :
    calculate_adaptive_threshold 1500 2 = 1006 ∧
    adaptiveThresholdExact 1500 2 = 1005 ∧
    calculate_adaptive_threshold 1500 2 ≠ adaptiveThresholdExact 1500 2 :=
  ⟨by decide, by decide, by decide⟩

/-- C6 (amended): `calculate_adaptive_threshold(n, level)` returns `0` for
`n = 0`, and otherwise `ceil(n * ratio)` computed in `f64` arithmetic (which
can exceed the exact ceiling, e.g. at `n = 1500`, level 2), clamped to
`[1, n]`; in particular `(5,1) = 3`, `(5,2) = 4`, `(5,3) = 4`, `(10,2) = 7`. -/
theorem C6_adaptive_threshold_amended :
    (∀ level, calculate_adaptive_threshold 0 level = 0) ∧
    calculate_adaptive_threshold 5 1 = 3 ∧
    calculate_adaptive_threshold 5 2 = 4 ∧
    calculate_adaptive_threshold 5 3 = 4 ∧
    calculate_adaptive_threshold 10 2 = 7 ∧
    (∀ n level, 0 < n →
      1 ≤ calculate_adaptive_threshold n level ∧
      calculate_adaptive_threshold n level ≤ n) := by
  refine ⟨fun _ => rfl, by decide, by decide, by decide, by decide, ?_⟩
  intro n level hn
  cases n with
  | zero => omega
  | succ m =>
    simp only [calculate_adaptive_threshold, if_neg (Nat.succ_ne_zero m)]
    omega

/-- Witness for C6 (amended), discharging the clamping bound at `n = 7`,
level 9 (an unlisted level, exercising the default ratio). -/
theorem C6_adaptive_threshold_amended_witness :
    0 < 7 ∧ 1 ≤ calculate_adaptive_threshold 7 9 ∧
      calculate_adaptive_threshold 7 9 ≤ 7 :=
  ⟨by decide, (C6_adaptive_threshold_amended.2.2.2.2.2 7 9 (by decide)).1,
    (C6_adaptive_threshold_amended.2.2.2.2.2 7 9 (by decide)).2⟩

/-! ## ZKSNARKProof wire format (src/types.rs) -/

/-- `u16::from_le_bytes([bytes[off], bytes[off+1]])`. -/
def readU16LE (bytes : List Nat) (off : Nat) : Nat :=
  bytes.getD off 0 + 256 * bytes.getD (off + 1) 0

/-- `u32::from_le_bytes([bytes[off], …, bytes[off+3]])`. -/
def readU32LE (bytes : List Nat) (off : Nat) : Nat :=
  bytes.getD off 0 + 256 * bytes.getD (off + 1) 0 +
    65536 * bytes.getD (off + 2) 0 + 16777216 * bytes.getD (off + 3) 0

/-- `ZKSNARKProof::to_bytes`:
`[version 0x02][num_signatures as u16 LE][public_inputs_hash][body len as u32 LE][body]`. -/
def ZKSNARKProof.to_bytes (p : ZKSNARKProof) : List Nat :=
  [2] ++ leBytes 2 p.num_signatures ++ p.public_inputs_hash ++
    leBytes 4 p.proof_bytes.length ++ p.proof_bytes

/-- `ZKSNARKProof::from_bytes`: `None` for buffers shorter than 39 bytes, a
wrong version byte, or a total length other than `39 + proof_len`. -/
def ZKSNARKProof.from_bytes (bytes : List Nat) : Option ZKSNARKProof :=
  if bytes.length < 39 then none
  else if bytes.getD 0 0 ≠ 2 then none
  else
    let num_signatures := readU16LE bytes 1
    let public_inputs_hash := (bytes.drop 3).take 32
    let proof_len := readU32LE bytes 35
    if bytes.length ≠ 39 + proof_len then none
    else some ⟨bytes.drop 39, num_signatures, public_inputs_hash⟩

theorem length_leBytes (m n : Nat) : (leBytes m n).length = m := by
  simp [leBytes]

theorem getD_leBytes (m n k : Nat) (hk : k < m) :
    (leBytes m n).getD k 0 = n / 256 ^ k % 256 := by
  rw [List.getD_eq_getElem _ _ (by simpa [length_leBytes] using hk)]
  simp [leBytes]

/-- Wire-format round trip, for proofs whose count fits in a `u16` and whose
body length fits in a `u32` (the header fields are truncating casts). -/
theorem from_bytes_to_bytes (B : List Nat) (n : Nat) (H : List Nat)
    (hH : H.length = 32) (hn : n < 65536) (hB : B.length < 4294967296) :
    ZKSNARKProof.from_bytes (ZKSNARKProof.to_bytes ⟨B, n, H⟩) = some ⟨B, n, H⟩ := by
  set L := B.length with hL
  set bytes := ZKSNARKProof.to_bytes ⟨B, n, H⟩ with hbytes
  have hcons : bytes = 2 :: (n / 1 % 256) :: (n / 256 % 256) ::
      (H ++ ((L / 1 % 256) :: (L / 256 % 256) :: (L / 65536 % 256) ::
        (L / 16777216 % 256) :: B)) := by
    rw [hbytes]
    show [2] ++ [n / 1 % 256, n / 256 % 256] ++ H ++
        [L / 1 % 256, L / 256 % 256, L / 65536 % 256, L / 16777216 % 256] ++ B = _
    simp
  have hlen : bytes.length = 39 + L := by
    rw [hcons]
    simp [hH]
    omega
  have h0 : bytes.getD 0 0 = 2 := by rw [hcons]; rfl
  have h1 : bytes.getD 1 0 = n / 1 % 256 := by rw [hcons]; rfl
  have h2 : bytes.getD 2 0 = n / 256 % 256 := by rw [hcons]; rfl
  have htail : ∀ k, (H ++ ((L / 1 % 256) :: (L / 256 % 256) :: (L / 65536 % 256) ::
      (L / 16777216 % 256) :: B)).getD (32 + k) 0 =
      ((L / 1 % 256) :: (L / 256 % 256) :: (L / 65536 % 256) ::
        (L / 16777216 % 256) :: B).getD k 0 := by
    intro k
    rw [List.getD_append_right _ _ _ _ (by omega), hH]
    congr 1
    omega
  have h35 : bytes.getD 35 0 = L / 1 % 256 := by
    rw [hcons, show (35 : Nat) = 3 + 32 from rfl]
    show (H ++ _).getD (32 + 0) 0 = _
    rw [htail 0]
    rfl
  have h36 : bytes.getD 36 0 = L / 256 % 256 := by
    rw [hcons, show (36 : Nat) = 3 + 33 from rfl]
    show (H ++ _).getD (32 + 1) 0 = _
    rw [htail 1]
    rfl
  have h37 : bytes.getD 37 0 = L / 65536 % 256 := by
    rw [hcons, show (37 : Nat) = 3 + 34 from rfl]
    show (H ++ _).getD (32 + 2) 0 = _
    rw [htail 2]
    rfl
  have h38 : bytes.getD 38 0 = L / 16777216 % 256 := by
    rw [hcons, show (38 : Nat) = 3 + 35 from rfl]
    show (H ++ _).getD (32 + 3) 0 = _
    rw [htail 3]
    rfl
  have hu16 : readU16LE bytes 1 = n := by
    rw [readU16LE, h1, show (1 + 1 : Nat) = 2 from rfl, h2]
    omega
  have hu32 : readU32LE bytes 35 = L := by
    rw [readU32LE, h35, show (35 + 1 : Nat) = 36 from rfl, h36,
      show (35 + 2 : Nat) = 37 from rfl, h37,
      show (35 + 3 : Nat) = 38 from rfl, h38]
    omega
  have hdrop3 : (bytes.drop 3).take 32 = H := by
    rw [hcons]
    show (H ++ _).take 32 = H
    exact List.take_left' hH
  have hdrop39 : bytes.drop 39 = B := by
    rw [hcons]
    show (H ++ ((L / 1 % 256) :: (L / 256 % 256) :: (L / 65536 % 256) ::
      (L / 16777216 % 256) :: B)).drop 36 = B
    rw [show (36 : Nat) = H.length + 4 from by rw [hH], List.drop_append]
    rfl
  rw [ZKSNARKProof.from_bytes, if_neg (by omega), if_neg (fun hc => hc h0),
    hu16, hu32, hdrop3, hdrop39, if_neg (by omega)]

/-- C4 counterexample: the claimed round trip fails for a constructed
`ZKSNARKProof` whose `num_signatures` (a `usize`) does not fit in the `u16`
header field — `to_bytes` truncates `65536` to `0`, so `from_bytes` succeeds
but reports `num_signatures = 0`, not an identical value. -/
theorem C4_wire_format_counterexample :
    ZKSNARKProof.from_bytes (ZKSNARKProof.to_bytes ⟨[], 65536, zero32⟩) =
      some ⟨[], 0, zero32⟩ ∧ (0 : Nat) ≠ 65536 :=
  ⟨by decide, by decide⟩

/-- C4 (amended): for every constructed `ZKSNARKProof` whose `num_signatures`
fits in a `u16` and whose body length fits in a `u32` (both header fields are
truncating casts), `from_bytes(to_bytes(p))` returns `Some` proof with
identical `num_signatures`, `public_inputs_hash`, and body bytes; and
`from_bytes` returns `None` on any buffer shorter than 39 bytes, any buffer
whose first byte is not `0x02`, and any buffer whose total length is not
exactly `39 + proof_body_len` as read from the header. -/
theorem C4_wire_format_amended :
    (∀ (B : List Nat) (n : Nat) (H : List Nat), H.length = 32 →
      n < 65536 → B.length < 4294967296 →
      ZKSNARKProof.from_bytes (ZKSNARKProof.to_bytes ⟨B, n, H⟩) = some ⟨B, n, H⟩) ∧
    (∀ bytes : List Nat, bytes.length < 39 → ZKSNARKProof.from_bytes bytes = none) ∧
    (∀ bytes : List Nat, bytes.getD 0 0 ≠ 2 → ZKSNARKProof.from_bytes bytes = none) ∧
    (∀ bytes : List Nat, bytes.length ≠ 39 + readU32LE bytes 35 →
      ZKSNARKProof.from_bytes bytes = none) := by
  refine ⟨from_bytes_to_bytes, ?_, ?_, ?_⟩
  · intro bytes h
    rw [ZKSNARKProof.from_bytes, if_pos h]
  · intro bytes h
    rw [ZKSNARKProof.from_bytes]
    rcases Nat.lt_or_ge bytes.length 39 with hl | hl
    · rw [if_pos hl]
    · rw [if_neg (by omega), if_pos h]
  · intro bytes h
    rw [ZKSNARKProof.from_bytes]
    rcases Nat.lt_or_ge bytes.length 39 with hl | hl
    · rw [if_pos hl]
    · rw [if_neg (by omega)]
      by_cases hv : bytes.getD 0 0 ≠ 2
      · rw [if_pos hv]
      · rw [if_neg hv, if_pos h]

/-- Witness for C4 (amended): a concrete 2-byte body, count 7, zero hash. -/
theorem C4_wire_format_amended_witness :
    (zero32.length = 32 ∧ 7 < 65536 ∧ ([9, 9] : List Nat).length < 4294967296 ∧
      ZKSNARKProof.from_bytes (ZKSNARKProof.to_bytes ⟨[9, 9], 7, zero32⟩) =
        some ⟨[9, 9], 7, zero32⟩) ∧
    (([0] : List Nat).length < 39 ∧ ZKSNARKProof.from_bytes [0] = none) :=
  ⟨⟨by decide, by decide, by decide,
      C4_wire_format_amended.1 [9, 9] 7 zero32 (by decide) (by decide) (by decide)⟩,
    by decide, C4_wire_format_amended.2.1 [0] (by decide)⟩

/-! ## Key generation (src/core/keygen.rs) and signing (src/core/signing.rs) -/

/-- `setup(n)`: `n` fresh keypairs wrapped with their index, plus the Merkle
root over the hashed public keys. The external `Keypair::generate()` calls are
threaded in as `keyGen`: `keyGen i = (public bytes, secret bytes)` of the
`i`-th generated keypair. `n = 0` returns empty vectors and the zero root. -/
def setup (hash : List Nat → List Nat) (keyGen : Nat → List Nat × List Nat)
    (n : Nat) : List SecretKey × List PublicKey × List Nat :=
  if n = 0 then ([], [], zero32)
  else
    let secret_keys := (List.range n).map fun i => SecretKey.mk (keyGen i).2 i
    let public_keys := (List.range n).map fun i => PublicKey.mk (keyGen i).1 i
    let merkle_tree := MerkleTree.from_public_keys hash public_keys
    (secret_keys, public_keys, merkle_tree.root)

/-- `verify_single`: direct ML-DSA verification through the opaque
`pqc_dilithium::verify` collaborator
(`mlDsaVerify sig_bytes msg pk_bytes`). -/
def verify_single (mlDsaVerify : List Nat → List Nat → List Nat → Bool)
    (pk : PublicKey) (msg : List Nat) (sig : Signature) : Bool :=
  mlDsaVerify sig.bytes msg pk.bytes

/-- `aggregate_sign`: clamp `t = min(threshold, min(|sks|, |pks|))`, return
empty vectors when `t = 0`, otherwise sign with the first `t` signers and
collect their Merkle proofs from one tree over all public keys.
`mlDsaSign sk_bytes pk_bytes msg` is the opaque `sign_with_dilithium`
(a transmute-based wrapper around `pqc_dilithium::Keypair::sign`);
`nonceGen i` is the 32-byte nonce the thread-local RNG returns in loop
iteration `i`. The source pushes a proof only `if let Some(proof)`; this is
the `filterMap`. -/
def aggregate_sign (hash : List Nat → List Nat)
    (mlDsaSign : List Nat → List Nat → List Nat → List Nat)
    (nonceGen : Nat → List Nat)
    (sks : List SecretKey) (pks : List PublicKey) (msg : List Nat)
    (threshold : Nat) : List Signature × List MerkleProof :=
  let n := min sks.length pks.length
  let t := min threshold n
  if t = 0 ∨ n = 0 then ([], [])
  else
    let merkle_tree := MerkleTree.from_public_keys hash pks
    let signatures := (List.range t).map fun i =>
      Signature.mk (mlDsaSign (sks.getD i ⟨[], 0⟩).bytes (pks.getD i ⟨[], 0⟩).bytes msg)
        i (nonceGen i)
    let proofs := (List.range t).filterMap fun i => merkle_tree.prove i
    (signatures, proofs)

theorem filterMap_all_some {α β : Type} (f : α → Option β) (g : α → β)
    (l : List α) (h : ∀ a ∈ l, f a = some (g a)) : l.filterMap f = l.map g := by
  induction l with
  | nil => rfl
  | cons a l ih =>
    rw [List.filterMap_cons, h a (by simp), List.map_cons,
      ih fun a ha => h a (by simp [ha])]

theorem from_leaves_num_leaves (hash : List Nat → List Nat)
    (L : List (List Nat)) : (MerkleTree.from_leaves hash L).num_leaves = L.length := by
  rw [MerkleTree.from_leaves]
  split
  · simp
    omega
  · rfl

theorem from_public_keys_num_leaves (hash : List Nat → List Nat)
    (pks : List PublicKey) :
    (MerkleTree.from_public_keys hash pks).num_leaves = pks.length := by
  rw [MerkleTree.from_public_keys, from_leaves_num_leaves, List.length_map]

/-- `prove` succeeds on every in-range index, with this explicit value. -/
theorem prove_eq_some (t : MerkleTree) (i : Nat) (hi : i < t.num_leaves) :
    t.prove i = some ⟨collectSiblings t.nodes (nextPowerOfTwo t.num_leaves - 1 + i),
      i, t.nodes.getD (nextPowerOfTwo t.num_leaves - 1 + i) zero32⟩ := by
  rw [MerkleTree.prove, if_neg (by omega)]

/-- When the clamped count `t` is positive, `aggregate_sign` returns exactly
the mapped signature and proof vectors over `0..t`. -/
theorem aggregate_sign_pos (hash : List Nat → List Nat)
    (mlDsaSign : List Nat → List Nat → List Nat → List Nat)
    (nonceGen : Nat → List Nat) (sks : List SecretKey) (pks : List PublicKey)
    (msg : List Nat) (threshold : Nat)
    (ht : 0 < min threshold (min sks.length pks.length)) :
    aggregate_sign hash mlDsaSign nonceGen sks pks msg threshold =
      ((List.range (min threshold (min sks.length pks.length))).map fun i =>
        Signature.mk
          (mlDsaSign (sks.getD i ⟨[], 0⟩).bytes (pks.getD i ⟨[], 0⟩).bytes msg)
          i (nonceGen i),
       (List.range (min threshold (min sks.length pks.length))).map fun i =>
        (⟨collectSiblings (MerkleTree.from_public_keys hash pks).nodes
            (nextPowerOfTwo pks.length - 1 + i), i,
          (MerkleTree.from_public_keys hash pks).nodes.getD
            (nextPowerOfTwo pks.length - 1 + i) zero32⟩ : MerkleProof)) := by
  simp only [aggregate_sign]
  rw [if_neg (by omega)]
  refine Prod.ext rfl ?_
  simp only
  rw [filterMap_all_some _ _ _ ?_]
  intro i hi
  have hi' : i < (MerkleTree.from_public_keys hash pks).num_leaves := by
    rw [from_public_keys_num_leaves]
    simp at hi
    omega
  rw [prove_eq_some _ _ hi', from_public_keys_num_leaves]

/-- C5: Signing bounds and parallelism — `aggregate_sign` returns exactly
`t = min(threshold, min(|sks|, |pks|))` signatures and `t` Merkle proofs;
`signatures[k]` has `signer_index = k` and `proofs[k]` is the Merkle proof
for leaf `k`, for every `k < t`; and `t = 0` yields two empty vectors
(no error path exists). -/
theorem C5_aggregate_sign_bounds (hash : List Nat → List Nat)
    (mlDsaSign : List Nat → List Nat → List Nat → List Nat)
    (nonceGen : Nat → List Nat) (sks : List SecretKey) (pks : List PublicKey)
    (msg : List Nat) (threshold : Nat) :
    ((aggregate_sign hash mlDsaSign nonceGen sks pks msg threshold).1.length =
      min threshold (min sks.length pks.length)) ∧
    ((aggregate_sign hash mlDsaSign nonceGen sks pks msg threshold).2.length =
      min threshold (min sks.length pks.length)) ∧
    (∀ k, k < min threshold (min sks.length pks.length) →
      ∃ sig, (aggregate_sign hash mlDsaSign nonceGen sks pks msg threshold).1.get? k =
          some sig ∧ sig.signer_index = k) ∧
    (∀ k, k < min threshold (min sks.length pks.length) →
      (aggregate_sign hash mlDsaSign nonceGen sks pks msg threshold).2.get? k =
        (MerkleTree.from_public_keys hash pks).prove k) ∧
    (min threshold (min sks.length pks.length) = 0 →
      aggregate_sign hash mlDsaSign nonceGen sks pks msg threshold = ([], [])) := by
  rcases Nat.eq_zero_or_pos (min threshold (min sks.length pks.length)) with ht | ht
  · have hz : aggregate_sign hash mlDsaSign nonceGen sks pks msg threshold = ([], []) := by
      simp only [aggregate_sign]
      rw [if_pos (Or.inl ht)]
    refine ⟨by rw [hz, ht]; rfl, by rw [hz, ht]; rfl, ?_, ?_, fun _ => hz⟩
    · intro k hk
      omega
    · intro k hk
      omega
  · rw [aggregate_sign_pos hash mlDsaSign nonceGen sks pks msg threshold ht]
    refine ⟨by simp, by simp, ?_, ?_, by omega⟩
    · intro k hk
      rw [List.get?_map, List.get?_range hk]
      exact ⟨_, rfl, rfl⟩
    · intro k hk
      have hk' : k < (MerkleTree.from_public_keys hash pks).num_leaves := by
        rw [from_public_keys_num_leaves]
        omega
      rw [List.get?_map, List.get?_range hk, prove_eq_some _ _ hk',
        from_public_keys_num_leaves]
      rfl

/-- Witness for C5, with two signers, threshold 5 (clamped to 2), index 1. -/
theorem C5_aggregate_sign_bounds_witness :
    (1 : Nat) < min 5 (min 2 2) ∧
    ∃ sig,
      (aggregate_sign (fun _ => zero32) (fun sk _ m => sk ++ m) (fun _ => zero32)
        [⟨[5], 0⟩, ⟨[6], 1⟩] [⟨[7], 0⟩, ⟨[8], 1⟩] [1] 5).1.get? 1 = some sig ∧
      sig.signer_index = 1 :=
  ⟨by decide,
    (C5_aggregate_sign_bounds (fun _ => zero32) (fun sk _ m => sk ++ m)
      (fun _ => zero32) [⟨[5], 0⟩, ⟨[6], 1⟩] [⟨[7], 0⟩, ⟨[8], 1⟩] [1] 5).2.2.1 1
      (by decide)⟩

/-! ## Proof aggregation (src/core/aggregation.rs) -/

/-- The error taxonomy of `src/error.rs` (the variants the core uses). -/
inductive PQAggregateError where
  | InsufficientSignatures (required provided : Nat)
  | InvalidInput (reason : String)
  | MerkleProofInvalid (index : Nat) (reason : String)
  | AggregationFailed (reason : String)
  deriving Repr, DecidableEq

/-- Maximum proof size in bytes. -/
def MAX_PROOF_SIZE : Nat := 1228

/-- `create_signer_bitmap`: set bit `index % 8` of byte `index / 8` for every
signer index `< 256`; indices `≥ 256` are silently dropped. -/
def create_signer_bitmap (sigs : List Signature) : List Nat :=
  sigs.foldl
    (fun bitmap sig =>
      let index := sig.signer_index
      if index < 256 then
        bitmap.set (index / 8) (Nat.lor (bitmap.getD (index / 8) 0) (2 ^ (index % 8)))
      else bitmap)
    (List.replicate 32 0)

/-- `compute_nonce_commitment`: hash of all nonces in input order (the
incremental `update` calls concatenate). -/
def compute_nonce_commitment (hash : List Nat → List Nat)
    (sigs : List Signature) : List Nat :=
  hash (List.join (sigs.map fun sig => sig.nonce))

/-- The commitment-chain loop of `create_aggregated_commitment`: each step
hashes the previous commitment, the signer index (`usize` little-endian),
the nonce, the Merkle leaf hash, and the 32-byte hash of the signature. -/
def foldCommitment (hash : List Nat → List Nat) :
    List (Signature × MerkleProof) → List Nat → List Nat
  | [], running => running
  | (sig, proof) :: rest, running =>
      foldCommitment hash rest
        (hash (running ++ leBytes 8 sig.signer_index ++ sig.nonce ++
          proof.leaf_hash ++ hash sig.bytes))

/-- `create_aggregated_commitment`: public-inputs hash, commitment chain, and
the proof body
`[version 0x01][count u16 LE][running:32][bitmap:32][nonce commitment:32][pk_root:32]`,
rejected with `AggregationFailed` when longer than `MAX_PROOF_SIZE`. -/
def create_aggregated_commitment (hash : List Nat → List Nat)
    (sigs : List Signature) (proofs : List MerkleProof)
    (pk_root : List Nat) (msg : List Nat) :
    Except PQAggregateError ZKSNARKProof :=
  let public_inputs_hash := hash (pk_root ++ msg ++ leBytes 8 sigs.length)
  let running_commitment := foldCommitment hash (sigs.zip proofs) zero32
  let proof_bytes := [1] ++ leBytes 2 sigs.length ++ running_commitment ++
    create_signer_bitmap sigs ++ compute_nonce_commitment hash sigs ++ pk_root
  if MAX_PROOF_SIZE < proof_bytes.length then
    .error (.AggregationFailed "Proof exceeds maximum size")
  else
    .ok ⟨proof_bytes, sigs.length, public_inputs_hash⟩

/-- The `for (i, proof) in proofs.iter().enumerate()` validation loop with its
early return: position of the first proof that fails Merkle verification. -/
def firstFailingMerkle (hash : List Nat → List Nat) (pk_root : List Nat) :
    List MerkleProof → Option Nat
  | [] => none
  | proof :: rest =>
      if MerkleTree.verify_proof hash pk_root proof then
        (firstFailingMerkle hash pk_root rest).map (· + 1)
      else some 0

/-- The signature validation loop with its early return: the first signature
whose signer index is out of bounds or which fails ML-DSA verification. -/
def firstBadSig (mlDsaVerify : List Nat → List Nat → List Nat → Bool)
    (pks : List PublicKey) (msg : List Nat) : List Signature → Option Signature
  | [] => none
  | sig :: rest =>
      if pks.length ≤ sig.signer_index then some sig
      else if verify_single mlDsaVerify (pks.getD sig.signer_index ⟨[], 0⟩) msg sig then
        firstBadSig mlDsaVerify pks msg rest
      else some sig

/-- `aggregate_proofs`: reject empty input, then mismatched counts, then the
first Merkle-proof failure, then the first bad signature; otherwise build the
aggregated commitment. -/
def aggregate_proofs (hash : List Nat → List Nat)
    (mlDsaVerify : List Nat → List Nat → List Nat → Bool)
    (sigs : List Signature) (proofs : List MerkleProof)
    (pk_root : List Nat) (msg : List Nat) (pks : List PublicKey) :
    Except PQAggregateError ZKSNARKProof :=
  if sigs.length = 0 then .error (.InsufficientSignatures 1 0)
  else if sigs.length ≠ proofs.length then
    .error (.InvalidInput "Signature and proof count mismatch")
  else
    match firstFailingMerkle hash pk_root proofs with
    | some i => .error (.MerkleProofInvalid i "Proof does not verify against pk_root")
    | none =>
      match firstBadSig mlDsaVerify pks msg sigs with
      | some sig =>
          if pks.length ≤ sig.signer_index then
            .error (.InvalidInput ("Signer index " ++ toString sig.signer_index ++
              " out of bounds (have " ++ toString pks.length ++ " keys)"))
          else
            .error (.InvalidInput ("Signature from signer " ++
              toString sig.signer_index ++ " failed ML-DSA verification"))
      | none => create_aggregated_commitment hash sigs proofs pk_root msg

/-- `validate_proof_structure` from src/core/aggregation.rs (the public one,
without the count-range check). -/
def validate_proof_structure (proof : ZKSNARKProof) : Bool :=
  let bytes := proof.proof_bytes
  if bytes.length < 131 then false
  else if bytes.getD 0 0 ≠ 1 then false
  else if readU16LE bytes 1 ≠ proof.num_signatures then false
  else true

/-! ## Proof verification (src/verifier.rs) -/

/-- `u8::count_ones`: the number of set bits among the byte's 8 bits. -/
def count_ones (b : Nat) : Nat :=
  ((List.range 8).filter fun k => Nat.testBit b k).length

/-- `count_signers_in_bitmap`: sum of per-byte popcounts. -/
def count_signers_in_bitmap (bitmap : List Nat) : Nat :=
  (bitmap.map count_ones).sum

/-- `compute_public_inputs_hash`: `H(pk_root ‖ msg ‖ num_sigs as u64 LE)`. -/
def compute_public_inputs_hash (hash : List Nat → List Nat)
    (pk_root msg : List Nat) (num_sigs : Nat) : List Nat :=
  hash (pk_root ++ msg ++ leBytes 8 num_sigs)

namespace Verifier

/-- `validate_proof_structure` from src/verifier.rs (private): additionally
requires `0 < num_signatures ≤ 256`. -/
def validate_proof_structure (proof : ZKSNARKProof) : Bool :=
  let bytes := proof.proof_bytes
  if bytes.length < 131 then false
  else if bytes.getD 0 0 ≠ 1 then false
  else if readU16LE bytes 1 ≠ proof.num_signatures then false
  else if proof.num_signatures = 0 ∨ 256 < proof.num_signatures then false
  else true

/-- `verify_proof_commitments`: trailing 32 bytes must equal `pk_root`, and
the bitmap's popcount must equal `num_signatures`. -/
def verify_proof_commitments (proof : ZKSNARKProof) (pk_root : List Nat) : Bool :=
  let bytes := proof.proof_bytes
  if bytes.length < 131 then false
  else
    let proof_root := bytes.drop (bytes.length - 32)
    if proof_root ≠ pk_root then false
    else
      let bitmap_start := 3 + 32
      if bytes.length < bitmap_start + 32 then false
      else
        let bitmap := (bytes.drop bitmap_start).take 32
        if count_signers_in_bitmap bitmap ≠ proof.num_signatures then false
        else true

/-- `verify`: structural validation, public-inputs hash check, commitment
checks; `true` only when all pass. -/
def verify (hash : List Nat → List Nat) (pk_root msg : List Nat)
    (proof : ZKSNARKProof) : Bool :=
  if ¬ validate_proof_structure proof then false
  else if compute_public_inputs_hash hash pk_root msg proof.num_signatures ≠
      proof.public_inputs_hash then false
  else verify_proof_commitments proof pk_root

end Verifier

/-- If some proof in the list fails Merkle verification, the validation loop
stops at the first failing position. -/
theorem firstFailingMerkle_spec (hash : List Nat → List Nat) (pk_root : List Nat) :
    ∀ proofs : List MerkleProof,
      (∃ pf ∈ proofs, MerkleTree.verify_proof hash pk_root pf = false) →
      ∃ i, firstFailingMerkle hash pk_root proofs = some i ∧ i < proofs.length ∧
        MerkleTree.verify_proof hash pk_root (proofs.getD i ⟨[], 0, []⟩) = false ∧
        ∀ j, j < i →
          MerkleTree.verify_proof hash pk_root (proofs.getD j ⟨[], 0, []⟩) = true := by
  intro proofs
  induction proofs with
  | nil => rintro ⟨pf, hmem, _⟩; simp at hmem
  | cons pf rest ih =>
    intro hex
    cases hv : MerkleTree.verify_proof hash pk_root pf with
    | false =>
      refine ⟨0, ?_, by simp, hv, by omega⟩
      rw [firstFailingMerkle, if_neg (by simp [hv])]
    | true =>
      obtain ⟨i, h1, h2, h3, h4⟩ := ih (by
        obtain ⟨w, hmem, hw⟩ := hex
        rcases List.mem_cons.mp hmem with hweq | hwmem
        · subst hweq; rw [hv] at hw; cases hw
        · exact ⟨w, hwmem, hw⟩)
      refine ⟨i + 1, ?_, by simp; omega, h3, ?_⟩
      · rw [firstFailingMerkle, if_pos hv, h1]
        rfl
      · intro j hj
        cases j with
        | zero => exact hv
        | succ j' => exact h4 j' (by omega)

/-- C3: `aggregate_proofs` error cases — `InsufficientSignatures{1, 0}` on an
empty signature list; `InvalidInput` on a non-empty list with mismatched
signature/proof counts; and `MerkleProofInvalid` carrying the (first) failing
position when the counts match but some proof fails Merkle verification
against `pk_root`. -/
theorem C3_aggregate_proofs_errors (hash : List Nat → List Nat)
    (mlDsaVerify : List Nat → List Nat → List Nat → Bool)
    (sigs : List Signature) (proofs : List MerkleProof)
    (pk_root : List Nat) (msg : List Nat) (pks : List PublicKey) :
    (sigs = [] →
      aggregate_proofs hash mlDsaVerify sigs proofs pk_root msg pks =
        .error (.InsufficientSignatures 1 0)) ∧
    (sigs ≠ [] → sigs.length ≠ proofs.length →
      ∃ r, aggregate_proofs hash mlDsaVerify sigs proofs pk_root msg pks =
        .error (.InvalidInput r)) ∧
    (sigs ≠ [] → sigs.length = proofs.length →
      (∃ pf ∈ proofs, MerkleTree.verify_proof hash pk_root pf = false) →
      ∃ i r, aggregate_proofs hash mlDsaVerify sigs proofs pk_root msg pks =
          .error (.MerkleProofInvalid i r) ∧ i < proofs.length ∧
        MerkleTree.verify_proof hash pk_root (proofs.getD i ⟨[], 0, []⟩) = false ∧
        ∀ j, j < i →
          MerkleTree.verify_proof hash pk_root (proofs.getD j ⟨[], 0, []⟩) = true) := by
  refine ⟨?_, ?_, ?_⟩
  · intro hs
    subst hs
    rfl
  · intro hne hcount
    rw [aggregate_proofs, if_neg (by simpa using hne), if_pos hcount]
    exact ⟨_, rfl⟩
  · intro hne hcount hex
    obtain ⟨i, h1, h2, h3, h4⟩ := firstFailingMerkle_spec hash pk_root proofs hex
    rw [aggregate_proofs, if_neg (by simpa using hne), if_neg (by omega), h1]
    exact ⟨i, _, rfl, h2, h3, h4⟩

/-- Witness for C3: the empty-input case and a concrete failing Merkle proof. -/
theorem C3_aggregate_proofs_errors_witness :
    (aggregate_proofs (fun _ => zero32) (fun _ _ _ => true) [] []
        zero32 [] [] = .error (.InsufficientSignatures 1 0)) ∧
    (∃ i r, aggregate_proofs (fun _ => zero32) (fun _ _ _ => true)
        [⟨[], 0, []⟩] [⟨[], 0, [1]⟩] zero32 [] [] =
          .error (.MerkleProofInvalid i r) ∧
      i < ([⟨[], 0, [1]⟩] : List MerkleProof).length ∧
      MerkleTree.verify_proof (fun _ => zero32) zero32
        (([⟨[], 0, [1]⟩] : List MerkleProof).getD i ⟨[], 0, []⟩) = false ∧
      ∀ j, j < i →
        MerkleTree.verify_proof (fun _ => zero32) zero32
          (([⟨[], 0, [1]⟩] : List MerkleProof).getD j ⟨[], 0, []⟩) = true) :=
  ⟨(C3_aggregate_proofs_errors (fun _ => zero32) (fun _ _ _ => true) [] []
      zero32 [] []).1 rfl,
    (C3_aggregate_proofs_errors (fun _ => zero32) (fun _ _ _ => true)
      [⟨[], 0, []⟩] [⟨[], 0, [1]⟩] zero32 [] []).2.2 (by decide) (by decide)
      ⟨⟨[], 0, [1]⟩, by decide, by decide⟩⟩

/-! ## The aggregation success path and the 131-byte proof body -/

theorem foldCommitment_length (hash : List Nat → List Nat)
    (hlen : ∀ d, (hash d).length = 32) :
    ∀ (l : List (Signature × MerkleProof)) (running : List Nat),
      running.length = 32 → (foldCommitment hash l running).length = 32 := by
  intro l
  induction l with
  | nil => intro running h; exact h
  | cons pair rest ih =>
    intro running _
    obtain ⟨sig, proof⟩ := pair
    exact ih _ (hlen _)

theorem create_signer_bitmap_length (sigs : List Signature) :
    (create_signer_bitmap sigs).length = 32 := by
  rw [create_signer_bitmap]
  generalize hinit : List.replicate 32 (0 : Nat) = init
  have hinit32 : init.length = 32 := by rw [← hinit]; rfl
  clear hinit
  induction sigs generalizing init with
  | nil => exact hinit32
  | cons sig rest ih =>
    rw [List.foldl_cons]
    apply ih
    simp only
    split
    · rw [List.length_set]; exact hinit32
    · exact hinit32

/-- The aggregated proof body is always exactly
131 bytes once the digest width is 32. -/
theorem proof_body_length (hash : List Nat → List Nat)
    (hlen : ∀ d, (hash d).length = 32) (sigs : List Signature)
    (proofs : List MerkleProof) (pk_root : List Nat)
    (hroot : pk_root.length = 32) :
    ([1] ++ leBytes 2 sigs.length ++ foldCommitment hash (sigs.zip proofs) zero32 ++
      create_signer_bitmap sigs ++ compute_nonce_commitment hash sigs ++
      pk_root).length = 131 := by
  simp [length_leBytes, hroot, hlen, compute_nonce_commitment,
    create_signer_bitmap_length,
    foldCommitment_length hash hlen _ zero32 (by rfl)]

/-- `create_aggregated_commitment` never hits the `AggregationFailed` branch:
the body is 131 bytes, below `MAX_PROOF_SIZE`. -/
theorem create_aggregated_commitment_eq (hash : List Nat → List Nat)
    (hlen : ∀ d, (hash d).length = 32) (sigs : List Signature)
    (proofs : List MerkleProof) (pk_root msg : List Nat)
    (hroot : pk_root.length = 32) :
    create_aggregated_commitment hash sigs proofs pk_root msg =
      .ok ⟨[1] ++ leBytes 2 sigs.length ++
          foldCommitment hash (sigs.zip proofs) zero32 ++
          create_signer_bitmap sigs ++ compute_nonce_commitment hash sigs ++ pk_root,
        sigs.length, compute_public_inputs_hash hash pk_root msg sigs.length⟩ := by
  rw [create_aggregated_commitment]
  rw [if_neg (by rw [proof_body_length hash hlen sigs proofs pk_root hroot]; decide)]
  rfl

theorem firstFailingMerkle_none (hash : List Nat → List Nat) (pk_root : List Nat) :
    ∀ proofs : List MerkleProof,
      (∀ pf ∈ proofs, MerkleTree.verify_proof hash pk_root pf = true) →
      firstFailingMerkle hash pk_root proofs = none := by
  intro proofs
  induction proofs with
  | nil => intro _; rfl
  | cons pf rest ih =>
    intro h
    rw [firstFailingMerkle, if_pos (h pf (by simp)),
      ih fun q hq => h q (by simp [hq])]
    rfl

theorem firstBadSig_none (mlDsaVerify : List Nat → List Nat → List Nat → Bool)
    (pks : List PublicKey) (msg : List Nat) :
    ∀ sigs : List Signature,
      (∀ sig ∈ sigs, sig.signer_index < pks.length ∧
        verify_single mlDsaVerify (pks.getD sig.signer_index ⟨[], 0⟩) msg sig = true) →
      firstBadSig mlDsaVerify pks msg sigs = none := by
  intro sigs
  induction sigs with
  | nil => intro _; rfl
  | cons sig rest ih =>
    intro h
    rw [firstBadSig, if_neg (by have := (h sig (by simp)).1; omega),
      if_pos (h sig (by simp)).2]
    exact ih fun s hs => h s (by simp [hs])

/-- When every validation passes, `aggregate_proofs` succeeds with the
131-byte commitment proof. -/
theorem aggregate_proofs_ok (hash : List Nat → List Nat)
    (hlen : ∀ d, (hash d).length = 32)
    (mlDsaVerify : List Nat → List Nat → List Nat → Bool)
    (sigs : List Signature) (proofs : List MerkleProof)
    (pk_root msg : List Nat) (pks : List PublicKey)
    (hne : sigs ≠ []) (hcount : sigs.length = proofs.length)
    (hroot : pk_root.length = 32)
    (hmerkle : ∀ pf ∈ proofs, MerkleTree.verify_proof hash pk_root pf = true)
    (hsig : ∀ sig ∈ sigs, sig.signer_index < pks.length ∧
      verify_single mlDsaVerify (pks.getD sig.signer_index ⟨[], 0⟩) msg sig = true) :
    aggregate_proofs hash mlDsaVerify sigs proofs pk_root msg pks =
      .ok ⟨[1] ++ leBytes 2 sigs.length ++
          foldCommitment hash (sigs.zip proofs) zero32 ++
          create_signer_bitmap sigs ++ compute_nonce_commitment hash sigs ++ pk_root,
        sigs.length, compute_public_inputs_hash hash pk_root msg sigs.length⟩ := by
  rw [aggregate_proofs, if_neg (by simpa using hne), if_neg (by omega),
    firstFailingMerkle_none hash pk_root proofs hmerkle,
    firstBadSig_none mlDsaVerify pks msg sigs hsig,
    create_aggregated_commitment_eq hash hlen sigs proofs pk_root msg hroot]

/-- Every run of `aggregate_proofs` either succeeds with a 131-byte body or
fails with an error other than `AggregationFailed`. -/
theorem aggregate_proofs_shape (hash : List Nat → List Nat)
    (hlen : ∀ d, (hash d).length = 32)
    (mlDsaVerify : List Nat → List Nat → List Nat → Bool)
    (sigs : List Signature) (proofs : List MerkleProof)
    (pk_root msg : List Nat) (pks : List PublicKey)
    (hroot : pk_root.length = 32) :
    (∃ proof, aggregate_proofs hash mlDsaVerify sigs proofs pk_root msg pks =
        .ok proof ∧ proof.proof_bytes.length = 131) ∨
    (∃ e, aggregate_proofs hash mlDsaVerify sigs proofs pk_root msg pks =
        .error e ∧ ∀ r, e ≠ .AggregationFailed r) := by
  rw [aggregate_proofs]
  split
  · exact Or.inr ⟨_, rfl, fun r h => PQAggregateError.noConfusion h⟩
  · split
    · exact Or.inr ⟨_, rfl, fun r h => PQAggregateError.noConfusion h⟩
    · split
      · exact Or.inr ⟨_, rfl, fun r h => PQAggregateError.noConfusion h⟩
      · split
        · split
          · exact Or.inr ⟨_, rfl, fun r h => PQAggregateError.noConfusion h⟩
          · exact Or.inr ⟨_, rfl, fun r h => PQAggregateError.noConfusion h⟩
        · rw [create_aggregated_commitment_eq hash hlen sigs proofs pk_root msg hroot]
          exact Or.inl ⟨_, rfl, proof_body_length hash hlen sigs proofs pk_root hroot⟩

/-- C9: every successful `aggregate_proofs` output has a proof body of exactly
131 bytes, independent of signature count and message; consequently the
`AggregationFailed` branch for exceeding `MAX_PROOF_SIZE = 1228` is
unreachable, and the 131-byte minimum-length check of
`validate_proof_structure` always passes on aggregation output. -/
theorem C9_proof_body_size (hash : List Nat → List Nat)
    (hlen : ∀ d, (hash d).length = 32)
    (mlDsaVerify : List Nat → List Nat → List Nat → Bool)
    (sigs : List Signature) (proofs : List MerkleProof)
    (pk_root msg : List Nat) (pks : List PublicKey)
    (hroot : pk_root.length = 32) :
    (∀ r, aggregate_proofs hash mlDsaVerify sigs proofs pk_root msg pks ≠
      .error (.AggregationFailed r)) ∧
    (∀ proof, aggregate_proofs hash mlDsaVerify sigs proofs pk_root msg pks =
        .ok proof →
      proof.size = 131 ∧ ¬ (proof.proof_bytes.length < 131) ∧
        proof.size ≤ MAX_PROOF_SIZE) := by
  rcases aggregate_proofs_shape hash hlen mlDsaVerify sigs proofs pk_root msg pks
      hroot with ⟨proof, hok, hsize⟩ | ⟨e, herr, hne⟩
  · constructor
    · intro r h
      rw [hok] at h
      exact Except.noConfusion h
    · intro proof' h
      rw [hok] at h
      obtain rfl : proof = proof' := by
        injection h
      refine ⟨hsize, by omega, ?_⟩
      rw [ZKSNARKProof.size, hsize]
      decide
  · constructor
    · intro r h
      rw [herr] at h
      injection h with h'
      exact hne r h'
    · intro proof h
      rw [herr] at h
      exact Except.noConfusion h

/-- Witness for C9, at a concrete constant hash and trivial inputs. -/
theorem C9_proof_body_size_witness :
    (∀ d : List Nat, ((fun _ => zero32) d : List Nat).length = 32) ∧
    zero32.length = 32 ∧
    ((∀ r, aggregate_proofs (fun _ => zero32) (fun _ _ _ => true)
        [⟨[], 0, []⟩] [⟨[], 0, zero32⟩] zero32 [] [⟨[], 0⟩] ≠
      .error (.AggregationFailed r)) ∧
    (∀ proof, aggregate_proofs (fun _ => zero32) (fun _ _ _ => true)
        [⟨[], 0, []⟩] [⟨[], 0, zero32⟩] zero32 [] [⟨[], 0⟩] = .ok proof →
      proof.size = 131 ∧ ¬ (proof.proof_bytes.length < 131) ∧
        proof.size ≤ MAX_PROOF_SIZE)) :=
  ⟨fun _ => rfl, rfl,
    C9_proof_body_size (fun _ => zero32) (fun _ => rfl) (fun _ _ _ => true)
      [⟨[], 0, []⟩] [⟨[], 0, zero32⟩] zero32 [] [⟨[], 0⟩] rfl⟩

/-! ## Totality of verification (C8)

The same three verifier functions, with every byte access modelled as a
fallible operation: `bytes[i]` is `get?`, a slice `&bytes[a..b]` demands
`a ≤ b ≤ len`, and the `usize` subtraction `len - 32` demands `32 ≤ len`
(Rust would panic, or in release mode wrap into a panicking slice, on
violation). `none` therefore models a panic; proving the checked model always
returns `some` of the pure result shows every access is guarded. -/

/-- `validate_proof_structure` with checked accesses to `bytes[0..3]`. -/
def validate_proof_structureChecked (proof : ZKSNARKProof) : Option Bool :=
  let bytes := proof.proof_bytes
  if bytes.length < 131 then some false
  else
    match bytes.get? 0 with
    | none => none
    | some b0 =>
      if b0 ≠ 1 then some false
      else
        match bytes.get? 1, bytes.get? 2 with
        | some b1, some b2 =>
          if b1 + 256 * b2 ≠ proof.num_signatures then some false
          else if proof.num_signatures = 0 ∨ 256 < proof.num_signatures then some false
          else some true
        | _, _ => none

/-- `verify_proof_commitments` with the checked subtraction and slices. -/
def verify_proof_commitmentsChecked (proof : ZKSNARKProof)
    (pk_root : List Nat) : Option Bool :=
  let bytes := proof.proof_bytes
  if bytes.length < 131 then some false
  else if bytes.length < 32 then none
  else
    let proof_root_start := bytes.length - 32
    if bytes.length < proof_root_start then none
    else
      let proof_root := bytes.drop proof_root_start
      if proof_root ≠ pk_root then some false
      else
        let bitmap_start := 3 + 32
        if bytes.length < bitmap_start + 32 then some false
        else if bitmap_start + 32 ≤ bytes.length then
          let bitmap := (bytes.drop bitmap_start).take 32
          if count_signers_in_bitmap bitmap ≠ proof.num_signatures then some false
          else some true
        else none

/-- `verify` with checked accesses throughout. -/
def verifyChecked (hash : List Nat → List Nat) (pk_root msg : List Nat)
    (proof : ZKSNARKProof) : Option Bool :=
  match validate_proof_structureChecked proof with
  | none => none
  | some sv =>
    if ¬ sv then some false
    else if compute_public_inputs_hash hash pk_root msg proof.num_signatures ≠
        proof.public_inputs_hash then some false
    else verify_proof_commitmentsChecked proof pk_root

theorem get?_eq_some_getD (l : List Nat) (i : Nat) (h : i < l.length) :
    l.get? i = some (l.getD i 0) := by
  rw [List.getD_eq_getD_get?]
  cases hg : l.get? i with
  | none => rw [List.get?_eq_none] at hg; omega
  | some a => rfl

theorem validate_proof_structureChecked_eq (proof : ZKSNARKProof) :
    validate_proof_structureChecked proof =
      some (Verifier.validate_proof_structure proof) := by
  rw [validate_proof_structureChecked, Verifier.validate_proof_structure]
  by_cases hl : proof.proof_bytes.length < 131
  · rw [if_pos hl, if_pos hl]
  · rw [if_neg hl, if_neg hl,
      get?_eq_some_getD _ 0 (by omega), get?_eq_some_getD _ 1 (by omega),
      get?_eq_some_getD _ 2 (by omega)]
    rw [show readU16LE proof.proof_bytes 1 =
      proof.proof_bytes.getD 1 0 + 256 * proof.proof_bytes.getD 2 0 from rfl]
    simp only []
    by_cases h0 : proof.proof_bytes.getD 0 0 ≠ 1
    · rw [if_pos h0, if_pos h0]
    · rw [if_neg h0, if_neg h0]
      by_cases h16 : proof.proof_bytes.getD 1 0 + 256 * proof.proof_bytes.getD 2 0 ≠
          proof.num_signatures
      · rw [if_pos h16, if_pos h16]
      · rw [if_neg h16, if_neg h16]
        by_cases hc : proof.num_signatures = 0 ∨ 256 < proof.num_signatures
        · rw [if_pos hc, if_pos hc]
        · rw [if_neg hc, if_neg hc]

theorem verify_proof_commitmentsChecked_eq (proof : ZKSNARKProof)
    (pk_root : List Nat) :
    verify_proof_commitmentsChecked proof pk_root =
      some (Verifier.verify_proof_commitments proof pk_root) := by
  rw [verify_proof_commitmentsChecked, Verifier.verify_proof_commitments]
  by_cases hl : proof.proof_bytes.length < 131
  · rw [if_pos hl, if_pos hl]
  · rw [if_neg hl, if_neg hl, if_neg (by omega), if_neg (by omega)]
    by_cases hr : proof.proof_bytes.drop (proof.proof_bytes.length - 32) ≠ pk_root
    · rw [if_pos hr, if_pos hr]
    · rw [if_neg hr, if_neg hr]
      by_cases hb : proof.proof_bytes.length < 3 + 32 + 32
      · rw [if_pos hb, if_pos hb]
      · rw [if_neg hb, if_neg hb, if_pos (by omega)]
        simp only []
        by_cases hcnt : count_signers_in_bitmap
            (List.take 32 (List.drop (3 + 32) proof.proof_bytes)) ≠
            proof.num_signatures
        · rw [if_pos hcnt, if_pos hcnt]
        · rw [if_neg hcnt, if_neg hcnt]

theorem verifyChecked_eq (hash : List Nat → List Nat) (pk_root msg : List Nat)
    (proof : ZKSNARKProof) :
    verifyChecked hash pk_root msg proof =
      some (Verifier.verify hash pk_root msg proof) := by
  rw [verifyChecked, Verifier.verify, validate_proof_structureChecked_eq]
  simp only []
  by_cases hv : ¬ Verifier.validate_proof_structure proof = true
  · rw [if_pos hv, if_pos hv]
  · rw [if_neg hv, if_neg hv]
    by_cases hh : compute_public_inputs_hash hash pk_root msg proof.num_signatures ≠
        proof.public_inputs_hash
    · rw [if_pos hh, if_pos hh]
    · rw [if_neg hh, if_neg hh, verify_proof_commitmentsChecked_eq]

/-- C8: verification totality — `verify` is a total boolean function: on every
`pk_root`, message, and `ZKSNARKProof` (including arbitrary malformed
`proof_bytes`, in particular shorter than 131 bytes), the checked-access model
never reaches an unguarded byte access (`none`) and returns exactly the
boolean that the pure `verify` computes. -/
theorem C8_verify_total (hash : List Nat → List Nat) (pk_root msg : List Nat)
    (proof : ZKSNARKProof) :
    verifyChecked hash pk_root msg proof =
      some (Verifier.verify hash pk_root msg proof) :=
  verifyChecked_eq hash pk_root msg proof

/-! ## Structure of the aggregated proof body, as seen by the verifier -/

/-- The root of a tree over at least two leaves is a hash output, hence 32
bytes wide. -/
theorem from_leaves_root_length (hash : List Nat → List Nat)
    (hlen : ∀ d, (hash d).length = 32) (L : List (List Nat)) (hL : 2 ≤ L.length) :
    (MerkleTree.from_leaves hash L).root.length = 32 := by
  have hn : ¬ L.length = 0 := by omega
  set p := nextPowerOfTwo L.length with hp
  have hnp : L.length ≤ p := le_nextPowerOfTwo L.length
  set nodes0 := List.replicate (p - 1) zero32 ++
    (L ++ List.replicate (p - L.length) zero32) with hnodes0
  have hlen0 : nodes0.length = 2 * p - 1 := by
    simp [hnodes0]
    omega
  set N := fillInternal hash nodes0 (p - 1) with hN
  have htree : MerkleTree.from_leaves hash L = ⟨N, L.length⟩ := by
    simp only [MerkleTree.from_leaves, hN, hnodes0, hp]
    rw [if_neg hn]
  have hpar := fillInternal_parent hash (p - 1) nodes0 (by omega)
  rw [← hN] at hpar
  rw [htree]
  show (N.headD zero32).length = 32
  rw [headD_eq_getD_zero, hpar 0 (by omega), hash_pair]
  exact hlen _

/-- Decomposition of the 131-byte aggregated proof body
`[1] ++ count ++ running ++ bitmap ++ nonce ++ root`. -/
theorem agg_bytes_parts (t : Nat) (R bm NC root : List Nat)
    (hR : R.length = 32) (hbm : bm.length = 32) (hNC : NC.length = 32)
    (hroot : root.length = 32) :
    ([1] ++ leBytes 2 t ++ R ++ bm ++ NC ++ root).length = 131 ∧
    ([1] ++ leBytes 2 t ++ R ++ bm ++ NC ++ root).getD 0 0 = 1 ∧
    readU16LE ([1] ++ leBytes 2 t ++ R ++ bm ++ NC ++ root) 1 = t % 65536 ∧
    ([1] ++ leBytes 2 t ++ R ++ bm ++ NC ++ root).drop
      (([1] ++ leBytes 2 t ++ R ++ bm ++ NC ++ root).length - 32) = root ∧
    (([1] ++ leBytes 2 t ++ R ++ bm ++ NC ++ root).drop (3 + 32)).take 32 = bm := by
  set B := [1] ++ leBytes 2 t ++ R ++ bm ++ NC ++ root with hB
  have hcons : B = 1 :: (t / 1 % 256) :: (t / 256 % 256) ::
      (R ++ (bm ++ (NC ++ root))) := by
    rw [hB]
    show [1] ++ [t / 1 % 256, t / 256 % 256] ++ R ++ bm ++ NC ++ root = _
    simp
  have hlenB : B.length = 131 := by
    rw [hcons]
    simp [hR, hbm, hNC, hroot]
  refine ⟨hlenB, by rw [hcons]; rfl, ?_, ?_, ?_⟩
  · have h1 : B.getD 1 0 = t / 1 % 256 := by rw [hcons]; rfl
    have h2 : B.getD 2 0 = t / 256 % 256 := by rw [hcons]; rfl
    rw [readU16LE, h1, show (1 + 1 : Nat) = 2 from rfl, h2]
    omega
  · rw [hlenB, hcons]
    show (R ++ (bm ++ (NC ++ root))).drop 96 = root
    rw [show (96 : Nat) = R.length + 64 from by omega, List.drop_append,
      show (64 : Nat) = bm.length + 32 from by omega, List.drop_append,
      List.drop_left' hNC]
  · rw [hcons]
    show ((R ++ (bm ++ (NC ++ root))).drop 32).take 32 = bm
    rw [List.drop_left' hR]
    exact List.take_left' hbm

/-- A well-formed aggregation output verifies: count in range, popcount
matching, stored hash matching. -/
theorem verify_true_of_parts (hash : List Nat → List Nat)
    (pk_root msg : List Nat) (t : Nat) (R bm NC : List Nat)
    (hR : R.length = 32) (hbm : bm.length = 32) (hNC : NC.length = 32)
    (hroot : pk_root.length = 32) (ht0 : 0 < t) (ht256 : t ≤ 256)
    (hpop : count_signers_in_bitmap bm = t) :
    Verifier.verify hash pk_root msg
      ⟨[1] ++ leBytes 2 t ++ R ++ bm ++ NC ++ pk_root, t,
        compute_public_inputs_hash hash pk_root msg t⟩ = true := by
  obtain ⟨hlenB, h0, h16, hdropRoot, hbmExtract⟩ :=
    agg_bytes_parts t R bm NC pk_root hR hbm hNC hroot
  rw [Verifier.verify]
  have hvalid : Verifier.validate_proof_structure
      ⟨[1] ++ leBytes 2 t ++ R ++ bm ++ NC ++ pk_root, t,
        compute_public_inputs_hash hash pk_root msg t⟩ = true := by
    rw [Verifier.validate_proof_structure]
    simp only
    rw [if_neg (by omega), if_neg (by omega),
      if_neg (by rw [h16]; omega), if_neg (by omega)]
  rw [if_neg (by rw [hvalid]; exact fun h => h rfl), if_neg (by simp)]
  rw [Verifier.verify_proof_commitments]
  simp only
  rw [if_neg (by omega), if_neg (by rw [hdropRoot]; exact fun h => h rfl),
    if_neg (by omega), hbmExtract, if_neg (by omega)]

/-- Conversely, if the verifier accepts a proof with the aggregation body
layout, the bitmap popcount equals the recorded signature count. -/
theorem popcount_eq_of_verify_true (hash : List Nat → List Nat)
    (pk_root msg : List Nat) (t : Nat) (R bm NC root pih : List Nat)
    (hR : R.length = 32) (hbm : bm.length = 32) (hNC : NC.length = 32)
    (hroot : root.length = 32)
    (hver : Verifier.verify hash pk_root msg
      ⟨[1] ++ leBytes 2 t ++ R ++ bm ++ NC ++ root, t, pih⟩ = true) :
    count_signers_in_bitmap bm = t := by
  obtain ⟨hlenB, h0, h16, hdropRoot, hbmExtract⟩ :=
    agg_bytes_parts t R bm NC root hR hbm hNC hroot
  rw [Verifier.verify] at hver
  by_cases hv : ¬ Verifier.validate_proof_structure
      ⟨[1] ++ leBytes 2 t ++ R ++ bm ++ NC ++ root, t, pih⟩ = true
  · rw [if_pos hv] at hver
    cases hver
  · rw [if_neg hv] at hver
    by_cases hh : compute_public_inputs_hash hash pk_root msg t ≠ pih
    · rw [if_pos hh] at hver
      cases hver
    · rw [if_neg hh, Verifier.verify_proof_commitments] at hver
      simp only at hver
      rw [if_neg (by omega)] at hver
      by_cases hrt : ([1] ++ leBytes 2 t ++ R ++ bm ++ NC ++ root).drop
          (([1] ++ leBytes 2 t ++ R ++ bm ++ NC ++ root).length - 32) ≠ pk_root
      · rw [if_pos hrt] at hver
        cases hver
      · rw [if_neg hrt, if_neg (by omega), hbmExtract] at hver
        by_cases hcnt : count_signers_in_bitmap bm ≠ t
        · rw [if_pos hcnt] at hver
          cases hver
        · omega

/-! ## Popcount of the signer bitmap -/

/-- Bit `i` of the bitmap byte array (bit `i % 8` of byte `i / 8`). -/
def bitTest (bm : List Nat) (i : Nat) : Bool :=
  Nat.testBit (bm.getD (i / 8) 0) (i % 8)

theorem bitTest_replicate_zero (i : Nat) :
    bitTest (List.replicate 32 0) i = false := by
  rw [bitTest, List.getD_eq_getD_get?, List.get?_eq_getElem?,
    List.getElem?_replicate]
  split <;> simp

/-- Bits set by `create_signer_bitmap` are exactly the in-range signer
indices. -/
theorem bitTest_create_signer_bitmap (sigs : List Signature) (i : Nat)
    (hi : i < 256) :
    bitTest (create_signer_bitmap sigs) i =
      decide (i ∈ sigs.map Signature.signer_index) := by
  rw [create_signer_bitmap]
  have main : ∀ (bm : List Nat), bm.length = 32 →
      bitTest (sigs.foldl
        (fun bitmap sig =>
          let index := sig.signer_index
          if index < 256 then
            bitmap.set (index / 8)
              (Nat.lor (bitmap.getD (index / 8) 0) (2 ^ (index % 8)))
          else bitmap) bm) i =
      (bitTest bm i || decide (i ∈ sigs.map Signature.signer_index)) := by
    induction sigs with
    | nil => intro bm _; simp
    | cons sig rest ih =>
      intro bm hbm
      rw [List.foldl_cons]
      have hstep : ∀ bm' : List Nat, bm'.length = 32 →
          bitTest ((fun bitmap (sig' : Signature) =>
            let index := sig'.signer_index
            if index < 256 then
              bitmap.set (index / 8)
                (Nat.lor (bitmap.getD (index / 8) 0) (2 ^ (index % 8)))
            else bitmap) bm' sig) i =
          (bitTest bm' i || decide (i = sig.signer_index)) := by
        intro bm' hbm'
        simp only
        by_cases hidx : sig.signer_index < 256
        · rw [if_pos hidx]
          by_cases hbyte : i / 8 = sig.signer_index / 8
          · rw [bitTest, List.getD_eq_getD_get?, hbyte,
              List.get?_set_eq_of_lt _ (by omega)]
            show (Nat.lor (bm'.getD (sig.signer_index / 8) 0)
              (2 ^ (sig.signer_index % 8))).testBit (i % 8) = _
            rw [show Nat.lor (bm'.getD (sig.signer_index / 8) 0)
                (2 ^ (sig.signer_index % 8)) =
              bm'.getD (sig.signer_index / 8) 0 |||
                2 ^ (sig.signer_index % 8) from rfl]
            rw [Nat.testBit_lor, Nat.testBit_two_pow]
            rw [bitTest, ← hbyte]
            congr 1
            rcases Nat.decEq i sig.signer_index with hne | heq
            · rw [decide_eq_false hne, decide_eq_false (by omega)]
            · rw [decide_eq_true heq, decide_eq_true (by omega)]
          · rw [bitTest, List.getD_eq_getD_get?,
              List.get?_set_ne _ _ (fun hc => hbyte hc.symm)]
            rw [bitTest, List.getD_eq_getD_get?,
              decide_eq_false (fun hc : i = sig.signer_index => hbyte (by omega)),
              Bool.or_false]
        · rw [if_neg hidx]
          rw [decide_eq_false (fun hc : i = sig.signer_index => by omega),
            Bool.or_false]
      rw [ih _ (by
          simp only
          split
          · rw [List.length_set]; exact hbm
          · exact hbm),
        hstep bm hbm]
      simp [Bool.or_assoc]
  rw [main _ (by simp), bitTest_replicate_zero]
  simp

/-- Summing per-byte popcounts counts exactly the set bit positions. -/
theorem count_eq_countP : ∀ bm : List Nat,
    count_signers_in_bitmap bm =
      (List.range (8 * bm.length)).countP (fun i => bitTest bm i) := by
  intro bm
  induction bm with
  | nil => rfl
  | cons b rest ih =>
    rw [count_signers_in_bitmap, List.map_cons, List.sum_cons,
      show (List.map count_ones rest).sum = count_signers_in_bitmap rest from rfl,
      ih]
    rw [show 8 * (b :: rest).length = 8 + 8 * rest.length from by
      rw [List.length_cons]; ring]
    rw [List.range_add, List.countP_append, List.countP_map]
    congr 1
    · rw [count_ones, ← List.countP_eq_length_filter]
      apply List.countP_congr
      intro k hk
      have hk8 : k < 8 := List.mem_range.mp hk
      rw [bitTest, List.getD_eq_getD_get?, Nat.div_eq_of_lt hk8,
        Nat.mod_eq_of_lt hk8]
      rfl
    · apply List.countP_congr
      intro j _
      show bitTest rest j = true ↔
        ((fun i => bitTest (b :: rest) i) ∘ fun x => 8 + x) j = true
      have hshift : bitTest (b :: rest) (8 + j) = bitTest rest j := by
        rw [bitTest, bitTest, show (8 + j) / 8 = j / 8 + 1 from by omega,
          show (8 + j) % 8 = j % 8 from by omega,
          List.getD_eq_getD_get?, List.getD_eq_getD_get?]
        rfl
      rw [show ((fun i => bitTest (b :: rest) i) ∘ fun x => 8 + x) j =
        bitTest (b :: rest) (8 + j) from rfl, hshift]

/-- The bitmap popcount is the number of distinct in-range signer indices. -/
theorem popcount_create_signer_bitmap (sigs : List Signature) :
    count_signers_in_bitmap (create_signer_bitmap sigs) =
      ((List.range 256).filter
        (fun i => decide (i ∈ sigs.map Signature.signer_index))).length := by
  rw [count_eq_countP, create_signer_bitmap_length,
    show (8 * 32 : Nat) = 256 from rfl, ← List.countP_eq_length_filter]
  apply List.countP_congr
  intro i hi
  rw [bitTest_create_signer_bitmap sigs i (List.mem_range.mp hi)]

theorem length_filter_lt_of_mem_not {α : Type} (p : α → Bool) :
    ∀ (l : List α) (x : α), x ∈ l → p x = false →
      (l.filter p).length < l.length := by
  intro l
  induction l with
  | nil => intro x hx; simp at hx
  | cons a rest ih =>
    intro x hx hpx
    rw [List.filter_cons]
    rcases List.mem_cons.mp hx with rfl | hxr
    · rw [if_neg (by simp [hpx])]
      have := List.length_filter_le p rest
      simp
      omega
    · split
      · have := ih x hxr hpx
        simp
        omega
      · have := ih x hxr hpx
        simp
        omega

/-- With a duplicate index or an index `≥ 256`, the number of distinct
in-range indices is strictly below the signature count. -/
theorem filter_mem_length_lt (idxs : List Nat)
    (h : ¬ idxs.Nodup ∨ ∃ x ∈ idxs, 256 ≤ x) :
    ((List.range 256).filter (fun i => decide (i ∈ idxs))).length <
      idxs.length := by
  have hnodupF : ((List.range 256).filter
      (fun i => decide (i ∈ idxs))).Nodup := (List.nodup_range 256).filter _
  have hdsub := (List.dedup_sublist idxs).length_le
  rcases h with hdup | ⟨x, hx, hxge⟩
  · have hsub : ((List.range 256).filter (fun i => decide (i ∈ idxs))) ⊆
        idxs.dedup := by
      intro a ha
      rw [List.mem_filter] at ha
      exact List.mem_dedup.mpr (by simpa using ha.2)
    have hlt : idxs.dedup.length < idxs.length := by
      rcases Nat.lt_or_ge idxs.dedup.length idxs.length with h' | h'
      · exact h'
      · exact absurd
          ((List.dedup_sublist idxs).eq_of_length (by omega) ▸
            List.nodup_dedup idxs) hdup
    exact Nat.lt_of_le_of_lt
      (List.subperm_of_subset hnodupF hsub).length_le hlt
  · have hsub : ((List.range 256).filter (fun i => decide (i ∈ idxs))) ⊆
        idxs.dedup.filter (fun i => decide (i < 256)) := by
      intro a ha
      rw [List.mem_filter] at ha
      rw [List.mem_filter]
      exact ⟨List.mem_dedup.mpr (by simpa using ha.2),
        by simpa using List.mem_range.mp ha.1⟩
    have hlt : (idxs.dedup.filter (fun i => decide (i < 256))).length <
        idxs.dedup.length :=
      length_filter_lt_of_mem_not _ idxs.dedup x (List.mem_dedup.mpr hx)
        (by simp; omega)
    exact Nat.lt_of_le_of_lt
      (List.subperm_of_subset hnodupF hsub).length_le (by omega)


/-- The end-to-end example message `b"transaction data"` (ASCII bytes). -/
def transaction_data : List Nat :=
  [116, 114, 97, 110, 115, 97, 99, 116, 105, 111, 110, 32, 100, 97, 116, 97]

set_option maxHeartbeats 1600000 in
/-- C1: end-to-end round trip — `setup(5)`, then
`aggregate_sign(sks, pks, b"transaction data", 3)`, then a successful
`aggregate_proofs` over the returned signatures and Merkle proofs with
`pk_root` and the same message, then `verify(pk_root, b"transaction data",
proof)` is `true`, and the proof byte size is at most 1228. Stated for every
hash collaborator of digest width 32 and every ML-DSA collaborator satisfying
its sign/verify contract. -/
theorem C1_end_to_end (hash : List Nat → List Nat)
    (keyGen : Nat → List Nat × List Nat)
    (mlDsaSign : List Nat → List Nat → List Nat → List Nat)
    (mlDsaVerify : List Nat → List Nat → List Nat → Bool)
    (nonceGen : Nat → List Nat)
    (hlen : ∀ d, (hash d).length = 32)
    (hcontract : ∀ sk pk m, mlDsaVerify (mlDsaSign sk pk m) m pk = true) :
    ∃ sks pks pk_root sigs prfs proof,
      setup hash keyGen 5 = (sks, pks, pk_root) ∧
      aggregate_sign hash mlDsaSign nonceGen sks pks transaction_data 3 =
        (sigs, prfs) ∧
      aggregate_proofs hash mlDsaVerify sigs prfs pk_root transaction_data pks =
        .ok proof ∧
      Verifier.verify hash pk_root transaction_data proof = true ∧
      proof.size ≤ 1228 := by
  set pks := (List.range 5).map (fun i => PublicKey.mk (keyGen i).1 i) with hpks
  set sks := (List.range 5).map (fun i => SecretKey.mk (keyGen i).2 i) with hsks
  set tree := MerkleTree.from_public_keys hash pks with htree
  set pk_root := tree.root with hroot_def
  have hsetup : setup hash keyGen 5 = (sks, pks, pk_root) := by
    rw [setup, if_neg (by decide)]
  have hpkslen : pks.length = 5 := by rw [hpks]; simp
  have hskslen : sks.length = 5 := by rw [hsks]; simp
  have hsign := aggregate_sign_pos hash mlDsaSign nonceGen sks pks
    transaction_data 3 (by rw [hskslen, hpkslen]; decide)
  rw [show min 3 (min sks.length pks.length) = 3 from by
    rw [hskslen, hpkslen]; rfl] at hsign
  set S := (List.range 3).map (fun i =>
    Signature.mk (mlDsaSign (sks.getD i ⟨[], 0⟩).bytes (pks.getD i ⟨[], 0⟩).bytes
      transaction_data) i (nonceGen i)) with hS
  set Pr := (List.range 3).map (fun i =>
    (⟨collectSiblings tree.nodes (nextPowerOfTwo pks.length - 1 + i), i,
      tree.nodes.getD (nextPowerOfTwo pks.length - 1 + i) zero32⟩ : MerkleProof))
    with hPr
  set leaves := pks.map (fun pk => hash pk.bytes) with hleaves
  have htree_eq : tree = MerkleTree.from_leaves hash leaves := rfl
  have hleaveslen : leaves.length = 5 := by rw [hleaves, List.length_map, hpkslen]
  have hroot32 : pk_root.length = 32 := by
    rw [hroot_def, htree_eq]
    exact from_leaves_root_length hash hlen leaves (by omega)
  have hnum : tree.num_leaves = pks.length := from_public_keys_num_leaves hash pks
  have hprf : ∀ i, i < 5 → MerkleTree.verify_proof hash pk_root
      (⟨collectSiblings tree.nodes (nextPowerOfTwo pks.length - 1 + i), i,
        tree.nodes.getD (nextPowerOfTwo pks.length - 1 + i) zero32⟩ :
          MerkleProof) = true := by
    intro i hi
    obtain ⟨pf, hsome, hver⟩ := merkle_prove_verifies hash leaves i (by omega)
    rw [← htree_eq] at hsome hver
    rw [prove_eq_some tree i (by rw [hnum, hpkslen]; omega), hnum] at hsome
    injection hsome with hpf
    rw [← hpf] at hver
    exact hver
  have hmerkle : ∀ pf ∈ Pr, MerkleTree.verify_proof hash pk_root pf = true := by
    intro pf hmem
    rw [hPr] at hmem
    obtain ⟨i, hi, rfl⟩ := List.mem_map.mp hmem
    exact hprf i (by simp at hi; omega)
  have hsig : ∀ sig ∈ S, sig.signer_index < pks.length ∧
      verify_single mlDsaVerify (pks.getD sig.signer_index ⟨[], 0⟩)
        transaction_data sig = true := by
    intro sig hmem
    rw [hS] at hmem
    obtain ⟨i, hi, rfl⟩ := List.mem_map.mp hmem
    have hi3 : i < 3 := by simpa using hi
    refine ⟨?_, hcontract _ _ _⟩
    show i < pks.length
    omega
  have hok := aggregate_proofs_ok hash hlen mlDsaVerify S Pr pk_root
    transaction_data pks (by rw [hS]; simp) (by rw [hS, hPr]; simp) hroot32
    hmerkle hsig
  have hSlen : S.length = 3 := by rw [hS]; simp
  rw [hSlen] at hok
  have hR32 : (foldCommitment hash (S.zip Pr) zero32).length = 32 :=
    foldCommitment_length hash hlen _ _ rfl
  have hNC32 : (compute_nonce_commitment hash S).length = 32 := hlen _
  have hbm32 : (create_signer_bitmap S).length = 32 := create_signer_bitmap_length S
  have hidx : S.map Signature.signer_index = [0, 1, 2] := by
    rw [hS, List.map_map]
    rfl
  have hpop : count_signers_in_bitmap (create_signer_bitmap S) = 3 := by
    rw [popcount_create_signer_bitmap, hidx]
    decide
  have hver := verify_true_of_parts hash pk_root transaction_data 3
    (foldCommitment hash (S.zip Pr) zero32) (create_signer_bitmap S)
    (compute_nonce_commitment hash S) hR32 hbm32 hNC32 hroot32
    (by omega) (by omega) hpop
  refine ⟨sks, pks, pk_root, S, Pr, _, hsetup, hsign, hok, hver, ?_⟩
  have h131 := (agg_bytes_parts 3 (foldCommitment hash (S.zip Pr) zero32)
    (create_signer_bitmap S) (compute_nonce_commitment hash S) pk_root
    hR32 hbm32 hNC32 hroot32).1
  rw [ZKSNARKProof.size]
  simp only
  omega

/-- Witness for C1, with the constant zero hash and trivially consistent
ML-DSA collaborators. -/
theorem C1_end_to_end_witness :
    (∀ d : List Nat, ((fun _ => zero32) d : List Nat).length = 32) ∧
    (∀ sk pk m : List Nat,
      ((fun _ _ _ => true) : List Nat → List Nat → List Nat → Bool)
        ((fun sk' pk' m' => sk' ++ pk' ++ m') sk pk m) m pk = true) ∧
    ∃ sks pks pk_root sigs prfs proof,
      setup (fun _ => zero32) (fun i => ([i], [i + 100])) 5 =
        (sks, pks, pk_root) ∧
      aggregate_sign (fun _ => zero32) (fun sk' pk' m' => sk' ++ pk' ++ m')
        (fun _ => zero32) sks pks transaction_data 3 = (sigs, prfs) ∧
      aggregate_proofs (fun _ => zero32) (fun _ _ _ => true) sigs prfs pk_root
        transaction_data pks = .ok proof ∧
      Verifier.verify (fun _ => zero32) pk_root transaction_data proof = true ∧
      proof.size ≤ 1228 :=
  ⟨fun _ => rfl, fun _ _ _ => rfl,
    C1_end_to_end (fun _ => zero32) (fun i => ([i], [i + 100]))
      (fun sk' pk' m' => sk' ++ pk' ++ m') (fun _ _ _ => true)
      (fun _ => zero32) (fun _ => rfl) (fun _ _ _ => rfl)⟩

/-- C7: duplicate or overflowing signer indices — if the signature list
carries a duplicate signer index, or any index `≥ 256`, aggregation itself
never rejects it (it still succeeds whenever the usual validations pass,
because `create_signer_bitmap` silently merges duplicates and drops indices
`≥ 256`), but the bitmap popcount then falls strictly below
`num_signatures`, so `verify` returns `false` on the resulting proof. -/
theorem C7_duplicate_or_overflow (hash : List Nat → List Nat)
    (hlen : ∀ d, (hash d).length = 32)
    (mlDsaVerify : List Nat → List Nat → List Nat → Bool)
    (sigs : List Signature) (proofs : List MerkleProof)
    (pk_root msg : List Nat) (pks : List PublicKey)
    (hroot : pk_root.length = 32)
    (hne : sigs ≠ []) (hcount : sigs.length = proofs.length)
    (hmerkle : ∀ pf ∈ proofs, MerkleTree.verify_proof hash pk_root pf = true)
    (hsig : ∀ sig ∈ sigs, sig.signer_index < pks.length ∧
      verify_single mlDsaVerify (pks.getD sig.signer_index ⟨[], 0⟩) msg sig = true)
    (hbad : ¬ (sigs.map Signature.signer_index).Nodup ∨
      ∃ x ∈ sigs.map Signature.signer_index, 256 ≤ x) :
    ∃ proof, aggregate_proofs hash mlDsaVerify sigs proofs pk_root msg pks =
        .ok proof ∧
      Verifier.verify hash pk_root msg proof = false := by
  have hok := aggregate_proofs_ok hash hlen mlDsaVerify sigs proofs pk_root msg
    pks hne hcount hroot hmerkle hsig
  refine ⟨_, hok, ?_⟩
  cases hv : Verifier.verify hash pk_root msg
      ⟨[1] ++ leBytes 2 sigs.length ++
        foldCommitment hash (sigs.zip proofs) zero32 ++
        create_signer_bitmap sigs ++ compute_nonce_commitment hash sigs ++ pk_root,
      sigs.length, compute_public_inputs_hash hash pk_root msg sigs.length⟩ with
  | false => rfl
  | true =>
    exfalso
    have hcnt := popcount_eq_of_verify_true hash pk_root msg sigs.length
      (foldCommitment hash (sigs.zip proofs) zero32) (create_signer_bitmap sigs)
      (compute_nonce_commitment hash sigs) pk_root
      (compute_public_inputs_hash hash pk_root msg sigs.length)
      (foldCommitment_length hash hlen _ _ rfl)
      (create_signer_bitmap_length sigs) (hlen _) hroot hv
    have hlt := filter_mem_length_lt (sigs.map Signature.signer_index) hbad
    rw [popcount_create_signer_bitmap] at hcnt
    rw [List.length_map] at hlt
    omega

/-- Witness for C7: two signatures sharing signer index 0, with trivially
consistent collaborators. -/
theorem C7_duplicate_or_overflow_witness :
    ¬ (([⟨[], 0, zero32⟩, ⟨[], 0, zero32⟩] : List Signature).map
        Signature.signer_index).Nodup ∧
    ∃ proof, aggregate_proofs (fun _ => zero32) (fun _ _ _ => true)
        [⟨[], 0, zero32⟩, ⟨[], 0, zero32⟩] [⟨[], 0, zero32⟩, ⟨[], 0, zero32⟩]
        zero32 [] [⟨[], 0⟩] = .ok proof ∧
      Verifier.verify (fun _ => zero32) zero32 [] proof = false :=
  ⟨by decide,
    C7_duplicate_or_overflow (fun _ => zero32) (fun _ => rfl) (fun _ _ _ => true)
      [⟨[], 0, zero32⟩, ⟨[], 0, zero32⟩] [⟨[], 0, zero32⟩, ⟨[], 0, zero32⟩]
      zero32 [] [⟨[], 0⟩] rfl (by decide) (by decide) (by decide) (by decide)
      (Or.inl (by decide))⟩

end PQAggregate
